import Mathlib

/-!
Verification development for the Android platform prepare module
(bin/templates/cordova/lib/prepare.js of cordova-android).

The JavaScript source is shallowly embedded: each function of prepare.js
becomes a pure Lean definition over explicit state.  File-system effects
(shelljs cp, rm, mkdir, ls, sed) are modelled by explicit data: maps from
relative paths to contents, lists of directory paths, and lists of emitted
copy requests.  JavaScript truthiness on optional strings and numbers is
modelled explicitly (absent, the empty string, the number 0 and NaN are
falsy).  External library calls (cordova-common mergeXml, ConfigChanges)
are taken as parameters or modelled from their documented behaviour, as
noted at each definition.
-/

/-! ## JavaScript value helpers -/

/-- Truthiness of an optional JS string: absent and the empty string are falsy. -/
def tstr : Option String → Bool
  | some s => s ≠ ""
  | none => false

/-- Truthiness of an optional JS number restricted to naturals: absent (NaN) and 0 are falsy. -/
def tnat : Option Nat → Bool
  | some n => n ≠ 0
  | none => false

/-- JS a paired with b by the logical-or operator on optional strings. -/
def jsOrStr (a b : Option String) : Option String :=
  if tstr a then a else b

/-- Character-list suffix test, modelling a regex anchored at the end of the string. -/
def endsWithB (s suf : String) : Bool :=
  List.isSuffixOf suf.data s.data

/-- Drop the last n characters of a string. -/
def dropRightStr (s : String) (n : Nat) : String :=
  String.mk (s.data.take (s.data.length - n))

/-- node path.join for the two-argument uses in prepare.js. -/
def pathJoin (a b : String) : String := a ++ "/" ++ b

/-! ## JS numbers and default_versionCode (prepare.js lines 179-195)

Embeds: nums = version.split(dash)[0].split(dot); versionCode starts at the
number 0 and accumulates +nums[0]*10000, +nums[1]*100 and +nums[2] with JS
number arithmetic, each added only when the unary-plus coercion of the
component is truthy (an absent component coerces to NaN).  The unary plus is
ECMAScript ToNumber on a string: surrounding white space stripped, the empty
remainder is 0, otherwise the string numeric literal grammar (signed decimal
with optional fraction and exponent, Infinity, hexadecimal, octal and binary
integer literals) decides, and any mismatch gives NaN.  Finite values are
kept as exact rationals; IEEE double rounding is not modelled. -/

/-- Numeric value of a decimal digit character. -/
def digitVal (c : Char) : Nat := c.toNat - 48

/-- Value of a list of decimal digits, most significant first. -/
def parseDigits (l : List Char) : Nat := l.foldl (fun n c => n * 10 + digitVal c) 0

/-- An exact rational value for a finite JS number: an integer numerator over a
positive denominator.  Values are kept unnormalized so every operation reduces
in the kernel; the program never compares numbers for equality, so
normalization is not needed. -/
structure QVal where
  num : Int
  den : Nat
deriving DecidableEq

/-- The rational with denominator one. -/
def qint (n : Int) : QVal := { num := n, den := 1 }

/-- Exact addition by cross multiplication. -/
def qAdd (a b : QVal) : QVal :=
  { num := a.num * (b.den : Int) + b.num * (a.den : Int), den := a.den * b.den }

/-- Exact multiplication. -/
def qMul (a b : QVal) : QVal := { num := a.num * b.num, den := a.den * b.den }

/-- Negation. -/
def qNeg (a : QVal) : QVal := { num := -a.num, den := a.den }

/-- Zero test: the value is zero exactly when the numerator is (denominators
of constructed values are positive). -/
def qIsZero (a : QVal) : Bool := a.num == 0

/-- Positivity test on the numerator. -/
def qPos (a : QVal) : Bool := decide (0 < a.num)

/-- A JavaScript number value: NaN, the two infinities, or a finite value kept
as an exact rational (IEEE double rounding is not modelled). -/
inductive JSNum where
  | nan : JSNum
  | posInf : JSNum
  | negInf : JSNum
  | num : QVal → JSNum
deriving DecidableEq

/-- ECMAScript StrWhiteSpaceChar: the WhiteSpace and LineTerminator characters. -/
def isStrWS (c : Char) : Bool :=
  c == ' ' || c == '\t' || c == '\n' || c == '\r' ||
  c.toNat == 11 || c.toNat == 12 || c.toNat == 0xa0 || c.toNat == 0xfeff ||
  c.toNat == 0x1680 || (decide (0x2000 ≤ c.toNat) && decide (c.toNat ≤ 0x200a)) ||
  c.toNat == 0x2028 || c.toNat == 0x2029 || c.toNat == 0x202f ||
  c.toNat == 0x205f || c.toNat == 0x3000

/-- Hexadecimal digit value, none for other characters. -/
def hexVal (c : Char) : Option Nat :=
  if c.isDigit then some (c.toNat - 48)
  else if 'a' ≤ c ∧ c ≤ 'f' then some (c.toNat - 87)
  else if 'A' ≤ c ∧ c ≤ 'F' then some (c.toNat - 55)
  else none

/-- Digit value below the given radix, none otherwise. -/
def radixVal (radix : Nat) (c : Char) : Option Nat :=
  match hexVal c with
  | some d => if d < radix then some d else none
  | none => none

/-- Value of a digit list in the given radix: none when empty or when some
character is not a digit of the radix. -/
def parseRadix (radix : Nat) (l : List Char) : Option Nat :=
  if l = [] then none
  else l.foldl (fun acc c =>
    match acc, radixVal radix c with
    | some n, some d => some (radix * n + d)
    | _, _ => none) (some 0)

/-- Split off the leading run of decimal digits. -/
def takeDigits : List Char → List Char × List Char
  | [] => ([], [])
  | c :: cs =>
    if c.isDigit then
      let p := takeDigits cs
      (c :: p.1, p.2)
    else ([], c :: cs)

/-- Parse an exponent body (what follows the e marker): an optional sign then
at least one decimal digit, consuming the whole remainder. -/
def parseExpBody : List Char → Option Int
  | '+' :: r => if !r.isEmpty && r.all (fun c => c.isDigit) then some (Int.ofNat (parseDigits r)) else none
  | '-' :: r => if !r.isEmpty && r.all (fun c => c.isDigit) then some (-Int.ofNat (parseDigits r)) else none
  | r => if !r.isEmpty && r.all (fun c => c.isDigit) then some (Int.ofNat (parseDigits r)) else none

/-- Exact value of a decimal literal from its integer digits, fraction digits
and exponent: the mantissa times ten to the scale. -/
def decValue (ip fp : List Char) (e : Int) : QVal :=
  let m := parseDigits (ip ++ fp)
  let sc := e - (fp.length : Int)
  if 0 ≤ sc then { num := (m : Int) * ((10 ^ sc.toNat : Nat) : Int), den := 1 }
  else { num := (m : Int), den := 10 ^ (-sc).toNat }

/-- ECMAScript StrUnsignedDecimalLiteral, matching the whole input: Infinity,
or decimal digits with an optional point, fraction and exponent. -/
def parseUnsignedDec (l : List Char) : Option JSNum :=
  if l = ['I', 'n', 'f', 'i', 'n', 'i', 't', 'y'] then some JSNum.posInf
  else
    let p1 := takeDigits l
    match p1.2 with
    | [] => if p1.1.isEmpty then none else some (JSNum.num (decValue p1.1 [] 0))
    | '.' :: r2 =>
      let p2 := takeDigits r2
      if p1.1.isEmpty && p2.1.isEmpty then none
      else
        match p2.2 with
        | [] => some (JSNum.num (decValue p1.1 p2.1 0))
        | c :: r4 =>
          if c == 'e' || c == 'E' then
            match parseExpBody r4 with
            | some e => some (JSNum.num (decValue p1.1 p2.1 e))
            | none => none
          else none
    | c :: r2 =>
      if (c == 'e' || c == 'E') && !p1.1.isEmpty then
        match parseExpBody r2 with
        | some e => some (JSNum.num (decValue p1.1 [] e))
        | none => none
      else none

/-- JS unary minus on a number (negative zero is identified with zero). -/
def jsNeg : JSNum → JSNum
  | JSNum.nan => JSNum.nan
  | JSNum.posInf => JSNum.negInf
  | JSNum.negInf => JSNum.posInf
  | JSNum.num q => JSNum.num (qNeg q)

/-- ECMAScript StrNumericLiteral, matching the whole input: an unsigned
hexadecimal, octal or binary integer literal, or a signed decimal literal. -/
def parseNumLit : List Char → Option JSNum
  | '0' :: 'x' :: r => (parseRadix 16 r).map (fun n => JSNum.num (qint (Int.ofNat n)))
  | '0' :: 'X' :: r => (parseRadix 16 r).map (fun n => JSNum.num (qint (Int.ofNat n)))
  | '0' :: 'o' :: r => (parseRadix 8 r).map (fun n => JSNum.num (qint (Int.ofNat n)))
  | '0' :: 'O' :: r => (parseRadix 8 r).map (fun n => JSNum.num (qint (Int.ofNat n)))
  | '0' :: 'b' :: r => (parseRadix 2 r).map (fun n => JSNum.num (qint (Int.ofNat n)))
  | '0' :: 'B' :: r => (parseRadix 2 r).map (fun n => JSNum.num (qint (Int.ofNat n)))
  | '+' :: r => parseUnsignedDec r
  | '-' :: r => (parseUnsignedDec r).map jsNeg
  | l => parseUnsignedDec l

/-- ECMAScript ToNumber on a string, as applied by the unary plus of lines
185-193: surrounding white space is stripped, an empty remainder gives 0,
otherwise the string numeric literal grammar decides and any mismatch gives
NaN. -/
def jsNum (s : String) : JSNum :=
  let l := ((s.data.dropWhile isStrWS).reverse.dropWhile isStrWS).reverse
  if l.isEmpty then JSNum.num (qint 0)
  else
    match parseNumLit l with
    | some v => v
    | none => JSNum.nan

/-- JS truthiness of a number: NaN and 0 are falsy. -/
def tjsnum : JSNum → Bool
  | JSNum.nan => false
  | JSNum.posInf => true
  | JSNum.negInf => true
  | JSNum.num q => !qIsZero q

/-- JS addition on numbers: NaN is absorbing and opposite infinities give NaN. -/
def jsAdd : JSNum → JSNum → JSNum
  | JSNum.nan, _ => JSNum.nan
  | _, JSNum.nan => JSNum.nan
  | JSNum.posInf, JSNum.negInf => JSNum.nan
  | JSNum.negInf, JSNum.posInf => JSNum.nan
  | JSNum.posInf, _ => JSNum.posInf
  | _, JSNum.posInf => JSNum.posInf
  | JSNum.negInf, _ => JSNum.negInf
  | _, JSNum.negInf => JSNum.negInf
  | JSNum.num a, JSNum.num b => JSNum.num (qAdd a b)

/-- JS multiplication on numbers: NaN is absorbing, zero times an infinity is
NaN, and infinities follow the sign rule. -/
def jsMul : JSNum → JSNum → JSNum
  | JSNum.nan, _ => JSNum.nan
  | _, JSNum.nan => JSNum.nan
  | JSNum.num a, JSNum.num b => JSNum.num (qMul a b)
  | JSNum.posInf, JSNum.posInf => JSNum.posInf
  | JSNum.posInf, JSNum.negInf => JSNum.negInf
  | JSNum.negInf, JSNum.posInf => JSNum.negInf
  | JSNum.negInf, JSNum.negInf => JSNum.posInf
  | JSNum.posInf, JSNum.num b => if qIsZero b then JSNum.nan else if qPos b then JSNum.posInf else JSNum.negInf
  | JSNum.num a, JSNum.posInf => if qIsZero a then JSNum.nan else if qPos a then JSNum.posInf else JSNum.negInf
  | JSNum.negInf, JSNum.num b => if qIsZero b then JSNum.nan else if qPos b then JSNum.negInf else JSNum.posInf
  | JSNum.num a, JSNum.negInf => if qIsZero a then JSNum.nan else if qPos a then JSNum.negInf else JSNum.posInf

/-- String.prototype.split with a one-character separator, on character lists:
every occurrence separates and empty pieces are kept. -/
def splitOnChar (sep : Char) : List Char → List (List Char)
  | [] => [[]]
  | c :: cs =>
    match splitOnChar sep cs with
    | [] => [[]]
    | h :: t => if c == sep then [] :: h :: t else (c :: h) :: t

/-- The unary-plus coercion +nums[i] of lines 185-193: the i-th dot-separated
component of the part of the version before the first dash; an absent
component coerces to NaN. -/
def versionNum (v : String) (i : Nat) : JSNum :=
  match ((splitOnChar '.' ((splitOnChar '-' v.data).headD [])).map String.mk)[i]? with
  | some s => jsNum s
  | none => JSNum.nan

/-- Embeds default_versionCode of prepare.js. -/
def default_versionCode (version : String) : JSNum :=
  let v1 := if tjsnum (versionNum version 0)
    then jsAdd (JSNum.num (qint 0)) (jsMul (versionNum version 0) (JSNum.num (qint 10000)))
    else JSNum.num (qint 0)
  let v2 := if tjsnum (versionNum version 1)
    then jsAdd v1 (jsMul (versionNum version 1) (JSNum.num (qint 100))) else v1
  if tjsnum (versionNum version 2) then jsAdd v2 (versionNum version 2) else v2

/-- Claim-side reading for C9: the coerced i-th component, with a missing,
non-numeric (NaN) or zero component replaced by the number 0. -/
def versionComponent (v : String) (i : Nat) : JSNum :=
  if tjsnum (versionNum v i) then versionNum v i else JSNum.num (qint 0)

/-! ## copyImage (prepare.js lines 197-210)

The observable effect is the destination folder (created when missing), the
destination file name, and the copied source.  The folder set models the
set of existing drawable folders. -/

structure CopyImageResult where
  folders : List String
  destFolder : String
  destFile : String
  copiedSrc : String
deriving DecidableEq

/-- Embeds copyImage of prepare.js: folder res/drawable-density (or res/drawable for a
falsy density), nine-patch renaming of the destination name, folder creation. -/
def copyImage (src resourcesDir density name : String) (folders : List String) : CopyImageResult :=
  let destFolder := pathJoin resourcesDir ((if density ≠ "" then "drawable-" else "drawable") ++ density)
  let isNinePatch := endsWithB src ".9.png"
  let ninePatchName := if endsWithB name ".png" then dropRightStr name 4 ++ ".9.png" else name
  let folders2 := if folders.contains destFolder then folders else folders ++ [destFolder]
  { folders := folders2
    destFolder := destFolder
    destFile := if isNinePatch then ninePatchName else name
    copiedSrc := src }

/-! ## updateWwwFrom (prepare.js lines 95-110)

Directory trees are modelled as maps from relative path to file content.
shell.cp -rf src-glob dst overwrites existing entries and keeps the rest. -/

/-- shell.cp -rf of the contents of src over dst: src wins on common paths. -/
def cpContents (src dst : String → Option String) : String → Option String :=
  fun p => match src p with
    | some v => some v
    | none => dst p

/-- Embeds updateWwwFrom of prepare.js: delete and recreate www, then copy the
project www, then platform_www over it, then merges/android over that when
that directory exists. -/
def updateWwwFrom (oldWww projWww platformWww merges : String → Option String)
    (mergesExists : Bool) : String → Option String :=
  let www0 : String → Option String := fun _ => none
  let www1 := cpContents projWww www0
  let www2 := cpContents platformWww www1
  if mergesExists then cpContents merges www2 else www2

/-! ## updateConfigFilesFrom (prepare.js lines 66-84)

XML documents are modelled as association lists from element key to value.
The config munger (cordova-common ConfigChanges) is an arbitrary function
on the platform config document. -/

/-- Lookup in an XML document model: first binding of the key wins. -/
def lookupX (m : List (String × String)) (k : String) : Option String :=
  (m.find? (fun p => p.1 == k)).map (fun p => p.2)

/-- Modelled from the spec: cordova-common xmlHelpers.mergeXml in clobber mode,
which is external to this repository.  Merging src into dst keeps every key
of both and lets src (the app document) win on conflicting keys. -/
def mergeXmlClobber (src dst : List (String × String)) : List (String × String) :=
  src ++ dst.filter (fun p => !(src.any (fun q => q.1 == p.1)))

/-- Embeds updateConfigFilesFrom of prepare.js: overwrite the platform config
with the defaults file, apply the global munge to it, merge the app document
into it in clobber mode, write the result, and return it.  The result pair is
(content written to the platform config.xml, returned parser document). -/
def updateConfigFilesFrom (sourceConfig : List (String × String))
    (munge : List (String × String) → List (String × String))
    (defaults : List (String × String)) (initialPlatformConfig : List (String × String)) :
    List (String × String) × List (String × String) :=
  let afterCopyDefaults := defaults
  let afterMunge := munge afterCopyDefaults
  let merged := mergeXmlClobber sourceConfig afterMunge
  (merged, merged)

/-! ## prepare (prepare.js lines 30-50)

The promise chain is synchronous end to end: updateConfigFilesFrom runs in
the assignment on line 34, updateWwwFrom when its Q.when argument is built
on line 38, and each .then callback only after the previous step resolved.
The model records a begin and an end event for each phase in execution
order. -/

def mergeConfigPhase : Fin 5 := 0
def copyWwwPhase : Fin 5 := 1
def rewriteProjectPhase : Fin 5 := 2
def iconsPhase : Fin 5 := 3
def splashesPhase : Fin 5 := 4

/-- A synchronous phase emits its begin event, runs, and emits its end event. -/
def runPhase (p : Fin 5) : List (Fin 5 × Bool) :=
  [(p, true), (p, false)]

/-- Event trace of module.exports.prepare, in the order the source sequences the
phases: config merge (line 34), www copy (line 38), project rewrite (line 41),
icons then splashes (lines 44-45). -/
def prepareTrace : List (Fin 5 × Bool) :=
  runPhase mergeConfigPhase
    ++ (runPhase copyWwwPhase
      ++ (runPhase rewriteProjectPhase
        ++ (runPhase iconsPhase ++ runPhase splashesPhase)))

/-! ## Project configuration and manifest (prepare.js lines 119-144) -/

/-- The slice of a cordova-common ConfigParser that updateProjectAccordingTo reads. -/
structure Config where
  name : String
  packageName : Option String
  android_packageName : Option String
  version : String
  android_versionCode : Option String
  prefs : List (String × String)
  androidPrefs : List (String × String)
deriving DecidableEq

/-- getPreference with one argument: the stored value or the empty string. -/
def getPref (cfg : Config) (k : String) : String :=
  ((cfg.prefs.find? (fun p => p.1 == k)).map (fun p => p.2)).getD ""

/-- getPreference with platform argument android. -/
def getAndroidPref (cfg : Config) (k : String) : Option String :=
  (cfg.androidPrefs.find? (fun p => p.1 == k)).map (fun p => p.2)

/-- Embeds line 128: dashes cannot appear in Java packages, so every dash of the
chosen package name is replaced by an underscore. -/
def replaceDashes (s : String) : String :=
  String.mk (s.data.map (fun c => if c = '-' then '_' else c))

/-- Embeds the package derivation of line 128: android_packageName when truthy,
else packageName, with dashes replaced. -/
def derivePkg (cfg : Config) : String :=
  replaceDashes ((jsOrStr cfg.android_packageName cfg.packageName).getD "")

/-- Embeds findOrientationValue of prepare.js lines 358-380. -/
def findOrientationValue (cfg : Config) : String :=
  let orientation := getPref cfg "orientation"
  if orientation = "" then "default"
  else if ["default", "portrait", "landscape"].contains orientation.toLower then orientation
  else "default"

/-- Embeds findAndroidLaunchModePreference of prepare.js lines 331-347: the raw
preference when truthy (validation only warns), else singleTop. -/
def findAndroidLaunchModePreference (cfg : Config) : String :=
  let launchMode := getPref cfg "AndroidLaunchMode"
  if launchMode = "" then "singleTop" else launchMode

/-- Embeds findAndroidDocumentLaunchModePreference of prepare.js lines 394-414:
the raw preference when truthy (validation only warns), else none. -/
def findAndroidDocumentLaunchModePreference (cfg : Config) : String :=
  let launchMode := getPref cfg "AndroidDocumentLaunchMode"
  if launchMode = "" then "none" else launchMode

/-! ## Icons and splashes (prepare.js lines 197-318)

An icon record carries the fields handleIcons reads.  The platform field
models the truthiness of the cordova-common platform property.  The
insertion-ordered JS object android_icons is an association list in which
an existing key is updated in place and a new key is appended. -/

structure Icon where
  src : String
  density : Option String
  width : Option Nat
  height : Option Nat
  platform : Bool
deriving DecidableEq

/-- A call to copyImage as emitted by handleIcons and handleSplashes:
copyImage(src, dest, density, name). -/
structure CopyCall where
  src : String
  dest : String
  density : String
  name : String
deriving DecidableEq

/-- Lookup in the insertion-ordered object model. -/
def lookupA : List (String × Icon) → String → Option Icon
  | [], _ => none
  | p :: ps, d => if p.1 = d then some p.2 else lookupA ps d

/-- JS property write on the object model: update in place when present, else append. -/
def updateA : List (String × Icon) → String → Icon → List (String × Icon)
  | [], d, i => [(d, i)]
  | p :: ps, d, i => if p.1 = d then (d, i) :: ps else p :: updateA ps d i

/-- Embeds the size-to-density lookup table of handleIcons (lines 255-262). -/
def sizeToDensityMap (n : Nat) : Option String :=
  match n with
  | 36 => some "ldpi"
  | 48 => some "mdpi"
  | 72 => some "hdpi"
  | 96 => some "xhdpi"
  | 144 => some "xxhdpi"
  | 192 => some "xxxhdpi"
  | _ => none

/-- Embeds lines 282-285: size is width, or height when width is falsy. -/
def iconSize (i : Icon) : Option Nat :=
  if tnat i.width then i.width else i.height

/-- Embeds line 286: an icon with falsy size and falsy density is a default-icon candidate. -/
def isDefaultIcon (i : Icon) : Bool :=
  !tnat (iconSize i) && !tstr i.density

/-- Embeds parseIcon (lines 265-277): density is the density attribute or the
mapped size; a falsy density is ignored; a recorded platform icon is kept;
otherwise the icon is recorded under its density. -/
def parseIconStep (m : List (String × Icon)) (i : Icon) (size : Option Nat) :
    List (String × Icon) :=
  let density := jsOrStr i.density (size.bind sizeToDensityMap)
  match density with
  | none => m
  | some ds =>
    if ds = "" then m
    else
      match lookupA m ds with
      | some previous => if previous.platform then m else updateA m ds i
      | none => updateA m ds i

/-- The density parseIcon records an icon under, when any. -/
def assignedDensity (i : Icon) : Option String :=
  match jsOrStr i.density ((iconSize i).bind sizeToDensityMap) with
  | none => none
  | some ds => if ds = "" then none else some ds

/-- One iteration of the icon loop (lines 280-295): a falsy-size falsy-density
icon becomes the default icon (first one wins), every other icon goes through
parseIcon. -/
def iconLoopStep (st : List (String × Icon) × Option Icon) (i : Icon) :
    List (String × Icon) × Option Icon :=
  if isDefaultIcon i then
    match st.2 with
    | some _ => st
    | none => (st.1, some i)
  else (parseIconStep st.1 i (iconSize i), st.2)

/-- The android_icons object and default icon after the icon loop. -/
def handleIconsFold (icons : List Icon) : List (String × Icon) × Option Icon :=
  icons.foldl iconLoopStep ([], none)

/-- The icons of the list that parseIcon assigns to density d, in list order. -/
def iconsAt (icons : List Icon) (d : String) : List Icon :=
  icons.filter (fun i => assignedDensity i == some d)

/-- Claim-side selection for C1: among the icons assigned to density d, the first
icon with a truthy platform field when there is one, else the last in list order. -/
def iconSpecSelect (icons : List Icon) (d : String) : Option Icon :=
  match (iconsAt icons d).find? (fun i => i.platform) with
  | some i => some i
  | none => (iconsAt icons d).getLast?

/-- The per-density copyImage calls of handleIcons (lines 301-303), iterating the
android_icons object in JS insertion order. -/
def iconDensityCallsOf (projectRoot platformRoot : String) (m : List (String × Icon)) :
    List CopyCall :=
  m.map (fun p =>
    { src := pathJoin projectRoot p.2.src
      dest := pathJoin platformRoot "res"
      density := p.1
      name := "icon.png" })

/-- Embeds handleIcons of prepare.js as the list of copyImage calls it makes, in
order.  The deleteDefaultResourceAt call only deletes files and is not part of
the copy trace.  projectRoot is path.dirname of the project config.xml. -/
def handleIcons (projectRoot platformRoot : String) (icons : List Icon) : List CopyCall :=
  if icons.length == 0 then []
  else
    let st := handleIconsFold icons
    let calls := iconDensityCallsOf projectRoot platformRoot st.1
    match st.2, lookupA st.1 "mdpi" with
    | some dflt, none =>
      calls ++ [{ src := pathJoin projectRoot dflt.src
                  dest := pathJoin platformRoot "res"
                  density := "mdpi"
                  name := "icon.png" }]
    | _, _ => calls

/-- The slice of a splash-screen resource that handleSplashes reads. -/
structure Splash where
  src : String
  density : Option String
deriving DecidableEq

/-- One iteration of the splash loop (lines 225-233): a falsy-density entry is
skipped; otherwise hadMdpi is updated and the entry is copied under its density. -/
def splashStep (projectRoot dest : String) (st : Bool × List CopyCall) (r : Splash) :
    Bool × List CopyCall :=
  if !tstr r.density then st
  else
    let hadMdpi := st.1 || (r.density == some "mdpi")
    (hadMdpi,
      st.2 ++ [{ src := pathJoin projectRoot r.src
                 dest := dest
                 density := r.density.getD ""
                 name := "screen.png" }])

/-- The per-density copyImage calls of the splash loop. -/
def splashDensityCalls (projectRoot platformRoot : String) (resources : List Splash) :
    List CopyCall :=
  (resources.foldl (splashStep projectRoot (pathJoin platformRoot "res")) (false, [])).2

/-- Embeds handleSplashes of prepare.js as the list of copyImage calls it makes.
defaultResource is the cordova-common defaultResource property of the returned
resource array (a member of the array without density attribute). -/
def handleSplashes (projectRoot platformRoot : String) (resources : List Splash)
    (defaultResource : Option Splash) : List CopyCall :=
  if resources.length == 0 then []
  else
    let dest := pathJoin platformRoot "res"
    let st := resources.foldl (splashStep projectRoot dest) (false, [])
    match defaultResource with
    | some dr =>
      if !st.1 then
        st.2 ++ [{ src := pathJoin projectRoot dr.src
                   dest := dest
                   density := "mdpi"
                   name := "screen.png" }]
      else st.2
    | none => st.2

/-! ## Package paths and the source-file tree (prepare.js lines 119-177)

Paths are lists of components.  Line 146 turns a package id into a
directory by replacing dots with slashes and joining; since node path
handling then splits on slashes, the component list of the package
directory is the package string split on dots and slashes alike. -/

/-- Split a character list at every dot or slash (dots are replaced by slashes
before joining on line 146, so both separate components). -/
def splitSepsChar : List Char → List (List Char)
  | [] => [[]]
  | c :: cs =>
    match splitSepsChar cs with
    | [] => [[]]
    | h :: t => if c = '.' ∨ c = '/' then [] :: h :: t else (c :: h) :: t

/-- The directory components a package id maps to on line 146 and line 157. -/
def splitDots (p : String) : List String :=
  (splitSepsChar p.data).map String.mk

/-- Rejoin components with dots; used to invert splitDots on slash-free input. -/
def joinChar : List (List Char) → List Char
  | [] => []
  | [l] => l
  | l :: ls => l ++ '.' :: joinChar ls

/-- A well-formed Java package identifier for the relocation argument: nonempty,
slash-free, with nonempty dot-separated components.  Under this the component
list determines the package string and path joining does not normalize. -/
def validPkgB (p : String) : Bool :=
  !(p == "") && p.data.all (fun c => c ≠ '/') && (splitSepsChar p.data).all (fun comp => comp ≠ [])

/-- A Java source file: its directory path, base name, package declaration and
whether its text matches the grep for extends CordovaActivity. -/
structure SrcFile where
  dirPath : List String
  name : String
  pkgDecl : String
  extendsCordovaActivity : Bool
deriving DecidableEq

/-- The platform project source tree: files and existing directories. -/
structure FS where
  files : List SrcFile
  dirs : List (List String)
deriving DecidableEq

/-- The sources root locations.root/src of lines 146 and 167. -/
def srcRootOf (root : List String) : List String := root ++ ["src"]

/-- Lexicographic character-list order for the sorted listing of shell.ls. -/
def charListLe : List Char → List Char → Bool
  | [], _ => true
  | _ :: _, [] => false
  | a :: as, b :: bs => if a = b then charListLe as bs else decide (a < b)

/-- String order for the sorted listing of shell.ls. -/
def strLeB (a b : String) : Bool := charListLe a.data b.data

/-- Insert a file into a name-sorted list. -/
def insertSorted (f : SrcFile) : List SrcFile → List SrcFile
  | [] => [f]
  | g :: gs => if strLeB f.name g.name then f :: g :: gs else g :: insertSorted f gs

/-- Name-sorted file listing, modelling the sorted output of shell.ls. -/
def sortFiles (l : List SrcFile) : List SrcFile := l.foldr insertSorted []

/-- Embeds lines 146-149: the .java files directly in the original package
directory, in shell.ls order, kept when they match extends CordovaActivity. -/
def javaCandidates (fs : FS) (root : List String) (origPkg : String) : List SrcFile :=
  let dir := srcRootOf root ++ splitDots origPkg
  (sortFiles (fs.files.filter (fun f => f.dirPath == dir && endsWithB f.name ".java"))).filter
    (fun f => f.extendsCordovaActivity)

/-- All nonempty prefixes of a directory path, shortest first. -/
def pathPrefixes (d : List String) : List (List String) :=
  (List.range d.length).map (fun k => d.take (k + 1))

/-- shell.mkdir -p: create the directory and its missing ancestors. -/
def mkdirP (fs : FS) (d : List String) : FS :=
  { fs with dirs := fs.dirs ++ (pathPrefixes d).filter (fun p => !fs.dirs.contains p) }

/-- Write a file, replacing any file at the same directory and name. -/
def writeFileFS (fs : FS) (f : SrcFile) : FS :=
  { fs with files := fs.files.filter (fun g => !(g.dirPath == f.dirPath && g.name == f.name)) ++ [f] }

/-- shell.rm -Rf on a file path. -/
def rmFileAt (fs : FS) (d : List String) (n : String) : FS :=
  { fs with files := fs.files.filter (fun g => !(g.dirPath == d && g.name == n)) }

/-- fs.rmdirSync. -/
def rmdirFS (fs : FS) (d : List String) : FS :=
  { fs with dirs := fs.dirs.filter (fun e => !(e == d)) }

/-- fs.existsSync on a directory. -/
def dirExistsB (fs : FS) (d : List String) : Bool := fs.dirs.contains d

/-- fs.readdirSync(d).length === 0: no file and no subdirectory entry directly in d. -/
def dirEmptyB (fs : FS) (d : List String) : Bool :=
  fs.files.all (fun f => !(f.dirPath == d)) && fs.dirs.all (fun e => !(e.dropLast == d && e != d))

/-- The file at a directory and name, when present. -/
def getFileFS (fs : FS) (d : List String) (n : String) : Option SrcFile :=
  fs.files.find? (fun g => g.dirPath == d && g.name == n)

/-- Embeds the cleanup loop of lines 166-175: walk from the removed file's
directory upward, deleting each directory that exists and is empty, stopping
at the sources root or at the first non-empty or missing directory.  The
empty-path guard is unreachable for calls below a nonempty sources root and
only serves termination. -/
def removeEmptyDirs (fs : FS) (cur root : List String) : FS :=
  if cur = root ∨ cur = [] then fs
  else if dirExistsB fs cur && dirEmptyB fs cur then
    removeEmptyDirs (rmdirFS fs cur) cur.dropLast root
  else fs
termination_by cur.length
decreasing_by
  simp only [List.length_dropLast]
  rename_i h _
  have hne : cur ≠ [] := by
    intro hc
    exact h (Or.inr hc)
  have hp : 0 < cur.length := List.length_pos.mpr hne
  omega

/-- Embeds lines 146-176 of updateProjectAccordingTo: find the candidate main
activity files, fail when there are none, write the first one with its package
declaration rewritten into the new package directory, and when the package
changed remove the original file and then empty ancestor directories. -/
def relocateJava (pkg origPkg : String) (root : List String) (fs : FS) : Except String FS :=
  match javaCandidates fs root origPkg with
  | [] => Except.error "No Java files found which extend CordovaActivity."
  | f :: _ =>
    let destDir := srcRootOf root ++ splitDots pkg
    let fs1 := mkdirP fs destDir
    let fs2 := writeFileFS fs1
      { dirPath := destDir
        name := f.name
        pkgDecl := "package " ++ pkg ++ ";"
        extendsCordovaActivity := f.extendsCordovaActivity }
    if origPkg ≠ pkg then
      let fs3 := rmFileAt fs2 f.dirPath f.name
      Except.ok (removeEmptyDirs fs3 f.dirPath (srcRootOf root))
    else Except.ok fs2

/-- The value handed to manifest.setVersionCode on line 139: the JS or keeps
the config string when truthy and otherwise yields the computed number. -/
inductive VersionCodeVal where
  | str : String → VersionCodeVal
  | num : JSNum → VersionCodeVal
deriving DecidableEq

/-- The slice of AndroidManifest.xml that updateProjectAccordingTo writes. -/
structure Manifest where
  packageId : String
  versionName : String
  versionCode : VersionCodeVal
  orientation : String
  launchMode : String
  documentLaunchMode : String
  minSdkVersion : Option String
  maxSdkVersion : Option String
  targetSdkVersion : Option String
deriving DecidableEq

/-- The mutable project state of updateProjectAccordingTo: the app_name string
resource, the manifest, and the source tree. -/
structure ProjState where
  appName : String
  manifest : Manifest
  fs : FS
deriving DecidableEq

/-- Embeds lines 120-144: the strings.xml and manifest writes, which complete
before the source relocation starts. -/
def manifestStage (cfg : Config) (st : ProjState) : ProjState :=
  { appName := cfg.name
    manifest :=
      { packageId := derivePkg cfg
        versionName := cfg.version
        versionCode :=
          if tstr cfg.android_versionCode then VersionCodeVal.str (cfg.android_versionCode.getD "")
          else VersionCodeVal.num (default_versionCode cfg.version)
        orientation := findOrientationValue cfg
        launchMode := findAndroidLaunchModePreference cfg
        documentLaunchMode := findAndroidDocumentLaunchModePreference cfg
        minSdkVersion := getAndroidPref cfg "android-minSdkVersion"
        maxSdkVersion := getAndroidPref cfg "android-maxSdkVersion"
        targetSdkVersion := getAndroidPref cfg "android-targetSdkVersion" }
    fs := st.fs }

/-- Embeds updateProjectAccordingTo of prepare.js: the original package id is
read from the manifest, the strings and manifest writes happen, then the main
activity source is relocated.  A thrown CordovaError is the error case. -/
def updateProjectAccordingTo (cfg : Config) (root : List String) (st : ProjState) :
    Except String ProjState :=
  let origPkg := st.manifest.packageId
  let pkg := derivePkg cfg
  let st1 := manifestStage cfg st
  (relocateJava pkg origPkg root st1.fs).map (fun fs2 => { st1 with fs := fs2 })

/-! ## Proof-side selection combinator and concrete fixtures -/

/-- What the icon loop leaves at density d when the object already holds prev
there: a recorded platform icon is final, otherwise the list selection wins
when nonempty, otherwise prev stays. -/
def selectFrom (prev : Option Icon) (icons : List Icon) (d : String) : Option Icon :=
  match prev with
  | some p =>
    if p.platform then some p
    else
      match iconSpecSelect icons d with
      | some j => some j
      | none => some p
  | none => iconSpecSelect icons d

/-- Fixture: an icon list with a size-mapped mdpi icon and a platform mdpi icon. -/
def iconsEx : List Icon :=
  [{ src := "a.png", density := none, width := some 48, height := none, platform := false },
   { src := "b.png", density := some "mdpi", width := none, height := none, platform := true }]

/-- Fixture: an icon list holding only a default icon. -/
def iconsDefaultEx : List Icon :=
  [{ src := "d.png", density := none, width := none, height := none, platform := false }]

/-- Fixture: the default icon of iconsDefaultEx. -/
def defaultIconEx : Icon :=
  { src := "d.png", density := none, width := none, height := none, platform := false }

/-- Fixture: a splash list with one hdpi entry and one density-less entry. -/
def splashesEx : List Splash :=
  [{ src := "s.png", density := some "hdpi" }, { src := "t.png", density := none }]

/-- Fixture: the density-less default splash of splashesEx. -/
def defaultSplashEx : Splash := { src := "t.png", density := none }

/-- Fixture: a source tree with one main-activity file under com.old. -/
def fsEx : FS :=
  { files := [{ dirPath := ["r", "src", "com", "old"]
                name := "Main.java"
                pkgDecl := "package com.old;"
                extendsCordovaActivity := true }]
    dirs := [["r"], ["r", "src"], ["r", "src", "com"], ["r", "src", "com", "old"]] }

/-- Fixture: a configuration keeping the package id unchanged at com.old. -/
def cfgEx : Config :=
  { name := "App"
    packageName := some "com.old"
    android_packageName := none
    version := "1.0.0"
    android_versionCode := some "7"
    prefs := []
    androidPrefs := [] }

/-- Fixture: the project state before updateProjectAccordingTo. -/
def stEx : ProjState :=
  { appName := "Old"
    manifest := { packageId := "com.old"
                  versionName := ""
                  versionCode := VersionCodeVal.str ""
                  orientation := ""
                  launchMode := ""
                  documentLaunchMode := ""
                  minSdkVersion := none
                  maxSdkVersion := none
                  targetSdkVersion := none }
    fs := fsEx }

/-- Fixture: the project state after updateProjectAccordingTo for cfgEx and stEx. -/
def stExpectedC2 : ProjState :=
  { appName := "App"
    manifest := { packageId := "com.old"
                  versionName := "1.0.0"
                  versionCode := VersionCodeVal.str "7"
                  orientation := "default"
                  launchMode := "singleTop"
                  documentLaunchMode := "none"
                  minSdkVersion := none
                  maxSdkVersion := none
                  targetSdkVersion := none }
    fs := fsEx }

/-! ## Path ancestry and tree well-formedness (for the relocation claims) -/

/-- a is an ancestor-or-self of b as a path component list. -/
def below (a b : List String) : Bool := a == b.take a.length

/-- Parents of nested directories exist (closure stops at top-level entries). -/
def dirsClosedB (fs : FS) : Bool :=
  fs.dirs.all (fun d => if 2 ≤ d.length then fs.dirs.contains d.dropLast else true)

/-- The directory of every file exists. -/
def filesDirsB (fs : FS) : Bool :=
  fs.files.all (fun f => fs.dirs.contains f.dirPath)

/-- Well-formed source tree: both closure conditions. -/
def wfFS (fs : FS) : Bool := dirsClosedB fs && filesDirsB fs

/-- The tree after lines 157-159: destination directory created and the first
candidate written there with its package declaration rewritten. -/
def writtenFS (pkg : String) (root : List String) (fs : FS) (f : SrcFile) : FS :=
  writeFileFS (mkdirP fs (srcRootOf root ++ splitDots pkg))
    { dirPath := srcRootOf root ++ splitDots pkg
      name := f.name
      pkgDecl := "package " ++ pkg ++ ";"
      extendsCordovaActivity := f.extendsCordovaActivity }

/-- The tree after lines 162-175 when the package changed: the original file
removed and empty ancestors cleaned up. -/
def relocatedFS (pkg : String) (root : List String) (fs : FS) (f : SrcFile) : FS :=
  removeEmptyDirs (rmFileAt (writtenFS pkg root fs f) f.dirPath f.name)
    f.dirPath (srcRootOf root)

/-- Fixture: the main-activity file of fsEx. -/
def mainFileEx : SrcFile :=
  { dirPath := ["r", "src", "com", "old"]
    name := "Main.java"
    pkgDecl := "package com.old;"
    extendsCordovaActivity := true }

/-- Fixture: a first candidate file. -/
def fileAEx : SrcFile :=
  { dirPath := ["r", "src", "com", "old"]
    name := "A.java"
    pkgDecl := "package com.old;"
    extendsCordovaActivity := true }

/-- Fixture: a second candidate file. -/
def fileBEx : SrcFile :=
  { dirPath := ["r", "src", "com", "old"]
    name := "B.java"
    pkgDecl := "package com.old;"
    extendsCordovaActivity := true }

/-- Fixture: a source tree with two main-activity candidates. -/
def fsTwoEx : FS :=
  { files := [fileAEx, fileBEx]
    dirs := [["r"], ["r", "src"], ["r", "src", "com"], ["r", "src", "com", "old"]] }

/-- Fixture: the project state over fsTwoEx. -/
def stTwoEx : ProjState :=
  { appName := "Old"
    manifest := { packageId := "com.old"
                  versionName := ""
                  versionCode := VersionCodeVal.str ""
                  orientation := ""
                  launchMode := ""
                  documentLaunchMode := ""
                  minSdkVersion := none
                  maxSdkVersion := none
                  targetSdkVersion := none }
    fs := fsTwoEx }

/-! # Theorems -/

/-! ## C9: default_versionCode -/

theorem jsAdd_zeroL (x : JSNum) : jsAdd (JSNum.num (qint 0)) x = x := by
  cases x <;> simp [jsAdd, qAdd, qint]

theorem jsAdd_zeroR (x : JSNum) : jsAdd x (JSNum.num (qint 0)) = x := by
  cases x <;> simp [jsAdd, qAdd, qint]

theorem jsMul_zeroL (k : Int) :
    jsMul (JSNum.num (qint 0)) (JSNum.num (qint k)) = JSNum.num (qint 0) := by
  simp [jsMul, qMul, qint, qIsZero]

/-- Concrete evaluations of the ToNumber embedding on representative inputs:
exponent, hexadecimal, white space with sign, Infinity, a mismatch, a bare
fraction with exponent, and a signed integer. -/
theorem jsNum_evals :
    jsNum "1e1" = JSNum.num (qint 10)
    ∧ jsNum "0x10" = JSNum.num (qint 16)
    ∧ jsNum " +3 " = JSNum.num (qint 3)
    ∧ jsNum "Infinity" = JSNum.posInf
    ∧ jsNum "4a" = JSNum.nan
    ∧ jsNum ".5e2" = JSNum.num (qint 50)
    ∧ jsNum "-2" = JSNum.num (qNeg (qint 2)) := by decide

/-- Concrete evaluations of the embedded default_versionCode: an exponent
component, a plain three-component version with a prerelease tag, and a
non-numeric major component. -/
theorem default_versionCode_evals :
    default_versionCode "1e1" = JSNum.num (qint 100000)
    ∧ default_versionCode "3.2.1-rc1" = JSNum.num (qint 30201)
    ∧ default_versionCode "a.2" = JSNum.num (qint 200) := by decide

/-- Claim C9: for every version string v, default_versionCode v is
major*10000 + minor*100 + patch in JS number arithmetic, where the components
are the first three dot-separated components of the part of v before the
first dash under the unary-plus coercion, and a missing, non-numeric, or zero
component contributes 0. -/
theorem default_versionCode_eq_weighted_components (v : String) :
    default_versionCode v =
      jsAdd (jsAdd (jsMul (versionComponent v 0) (JSNum.num (qint 10000)))
                   (jsMul (versionComponent v 1) (JSNum.num (qint 100))))
            (versionComponent v 2) := by
  unfold default_versionCode versionComponent
  generalize versionNum v 0 = a
  generalize versionNum v 1 = b
  generalize versionNum v 2 = c
  by_cases ha : tjsnum a = true <;> by_cases hb : tjsnum b = true <;>
    by_cases hc : tjsnum c = true <;>
    simp [ha, hb, hc, jsAdd_zeroL, jsAdd_zeroR, jsMul_zeroL]

/-! ## C8: copyImage -/

/-- Claim C8: copyImage targets res/drawable-d for a non-empty density and
res/drawable for an empty one, creates the folder only when missing, and
renames the destination to a nine-patch name exactly when the source ends in
.9.png. -/
theorem copyImage_destination (src res d n : String) (folders : List String) :
    (copyImage src res d n folders).destFolder =
        (if d = "" then pathJoin res "drawable" else pathJoin res ("drawable-" ++ d))
    ∧ (copyImage src res d n folders).folders.contains (copyImage src res d n folders).destFolder = true
    ∧ (folders.contains (copyImage src res d n folders).destFolder = true →
        (copyImage src res d n folders).folders = folders)
    ∧ (∀ x, folders.contains x = true → (copyImage src res d n folders).folders.contains x = true)
    ∧ (copyImage src res d n folders).destFile =
        (if endsWithB src ".9.png" then
          (if endsWithB n ".png" then dropRightStr n 4 ++ ".9.png" else n)
        else n) := by
  unfold copyImage
  by_cases hd : d = "" <;>
    by_cases hc : folders.contains (pathJoin res ((if d ≠ "" then "drawable-" else "drawable") ++ d)) <;>
      simp_all [pathJoin]

/-! ## C6: updateWwwFrom -/

/-- Claim C6: after updateWwwFrom, the platform www holds, at every relative
path, the merges/android file when that layer is enabled and provides one,
else the platform_www file, else the project www file; the previous www
content never survives. -/
theorem updateWwwFrom_layering (oldWww projWww platformWww merges : String → Option String)
    (mergesExists : Bool) (p : String) :
    updateWwwFrom oldWww projWww platformWww merges mergesExists p =
      (match (if mergesExists then merges p else none) with
        | some v => some v
        | none =>
          match platformWww p with
          | some v => some v
          | none => projWww p) := by
  cases hm : merges p <;> cases hp : platformWww p <;> cases hj : projWww p <;>
    cases mergesExists <;> simp [updateWwwFrom, cpContents, hm, hp, hj]

/-! ## C7: updateConfigFilesFrom -/

theorem find_filter_of_none {α : Type} (p q : α → Bool) (l : List α)
    (h : ∀ x, p x = true → q x = true) :
    (l.filter q).find? p = l.find? p := by
  induction l with
  | nil => rfl
  | cons x xs ih =>
    by_cases hx : p x = true
    · have hq := h x hx
      simp [List.filter, hq, List.find?, hx]
    · have hpx : p x = false := by revert hx; cases p x <;> simp
      cases hqx : q x <;> simp [List.filter, hqx, List.find?, hpx, ih]

theorem lookupX_mergeXmlClobber (src dst : List (String × String)) (k : String) :
    lookupX (mergeXmlClobber src dst) k =
      (match lookupX src k with
        | some v => some v
        | none => lookupX dst k) := by
  unfold lookupX mergeXmlClobber
  rw [List.find?_append]
  cases hs : src.find? (fun p => p.1 == k) with
  | some q => simp
  | none =>
    have hnone : ∀ x ∈ src, ¬((fun p => (p.1 == k)) x = true) := List.find?_eq_none.mp hs
    have hcl : ∀ x : String × String,
        (fun p => p.1 == k) x = true → (fun p => !(src.any (fun q => q.1 == p.1))) x = true := by
      intro x hx
      have hxk : x.1 = k := eq_of_beq hx
      simp only [hxk, Bool.not_eq_true']
      rw [List.any_eq_false]
      intro q hq
      exact hnone q hq
    rw [find_filter_of_none _ _ _ hcl]
    simp [Option.none_or]

/-- Claim C7: updateConfigFilesFrom writes back exactly what it returns, and the
written platform config is the app document merged in clobber mode over the
global munge applied to the defaults file: at every key the app value wins when
present, else the munged-defaults value; the previous platform config never
contributes. -/
theorem updateConfigFilesFrom_merge (sourceConfig : List (String × String))
    (munge : List (String × String) → List (String × String))
    (defaults initialPlatformConfig : List (String × String)) (k : String) :
    (updateConfigFilesFrom sourceConfig munge defaults initialPlatformConfig).2 =
        (updateConfigFilesFrom sourceConfig munge defaults initialPlatformConfig).1
    ∧ lookupX (updateConfigFilesFrom sourceConfig munge defaults initialPlatformConfig).1 k =
        (match lookupX sourceConfig k with
          | some v => some v
          | none => lookupX (munge defaults) k)
    ∧ (∀ va vp, lookupX sourceConfig k = some va → lookupX (munge defaults) k = some vp →
        lookupX (updateConfigFilesFrom sourceConfig munge defaults initialPlatformConfig).1 k = some va) := by
  refine ⟨rfl, ?_, ?_⟩
  · exact lookupX_mergeXmlClobber sourceConfig (munge defaults) k
  · intro va vp hva hvp
    have := lookupX_mergeXmlClobber sourceConfig (munge defaults) k
    simp only [updateConfigFilesFrom]
    simp only [updateConfigFilesFrom] at this
    rw [this, hva]

/-! ## C5: prepare phase order -/

/-- Claim C5: in the prepare promise chain the five synchronous steps (config
merge, www copy, project rewrite, icons, splashes) are totally ordered: the end
event of every earlier phase is indexed before the begin event of every later
phase in the execution trace. -/
theorem prepare_phases_sequential :
    ∀ p q : Fin 5, p < q →
      prepareTrace.indexOf ((p, false)) < prepareTrace.indexOf ((q, true)) := by decide

theorem prepare_phases_sequential_witness :
    prepareTrace.indexOf ((mergeConfigPhase, false)) < prepareTrace.indexOf ((copyWwwPhase, true)) :=
  prepare_phases_sequential mergeConfigPhase copyWwwPhase (by decide)

theorem copyImage_destination_witness :
    (copyImage "a.9.png" "res" "hdpi" "icon.png" ["res/drawable-hdpi"]).folders = ["res/drawable-hdpi"] :=
  (copyImage_destination "a.9.png" "res" "hdpi" "icon.png" ["res/drawable-hdpi"]).2.2.1 (by decide)

theorem updateConfigFilesFrom_merge_witness :
    lookupX (updateConfigFilesFrom [("name", "app")] (fun m => m ++ [("plugin", "1")])
      [("name", "default")] []).1 "name" = some "app" :=
  (updateConfigFilesFrom_merge [("name", "app")] (fun m => m ++ [("plugin", "1")])
    [("name", "default")] [] "name").2.2 "app" "default" (by decide) (by decide)

/-! ## C1: handleIcons selection -/

theorem lookupA_updateA (m : List (String × Icon)) (ds : String) (i : Icon) (d : String) :
    lookupA (updateA m ds i) d = (if d = ds then some i else lookupA m d) := by
  induction m with
  | nil =>
    by_cases hd : d = ds
    · simp [updateA, lookupA, hd]
    · have hsd : ¬ds = d := fun h => hd h.symm
      simp [updateA, lookupA, hd, hsd]
  | cons p ps ih =>
    by_cases hpds : p.1 = ds
    · by_cases hd : d = ds
      · simp [updateA, lookupA, hpds, hd]
      · have hsd : ¬ds = d := fun h => hd h.symm
        simp [updateA, lookupA, hpds, hd, hsd]
    · by_cases hpd : p.1 = d
      · have hd : ¬d = ds := fun h => hpds (hpd.trans h)
        simp [updateA, lookupA, hpds, hpd, hd]
      · simp [updateA, lookupA, hpds, hpd, ih]

theorem lookupA_mem (m : List (String × Icon)) (d : String) (i : Icon)
    (h : lookupA m d = some i) : (d, i) ∈ m := by
  induction m with
  | nil => simp [lookupA] at h
  | cons p ps ih =>
    by_cases hpd : p.1 = d
    · simp only [lookupA, hpd, if_pos rfl] at h
      have : p = (d, i) := by
        cases p
        simp_all
      simp [this]
    · simp only [lookupA, hpd, if_neg hpd] at h
      exact List.mem_cons_of_mem p (ih h)

theorem assignedDensity_of_default (i : Icon) (h : isDefaultIcon i = true) :
    assignedDensity i = none := by
  simp only [isDefaultIcon, Bool.and_eq_true, Bool.not_eq_true'] at h
  obtain ⟨h1, h2⟩ := h
  have hrw : jsOrStr i.density ((iconSize i).bind sizeToDensityMap) =
      (iconSize i).bind sizeToDensityMap := by
    unfold jsOrStr
    rw [h2]
    simp
  unfold assignedDensity
  rw [hrw]
  cases hs : iconSize i with
  | none => simp
  | some n =>
    rw [hs] at h1
    have hn : n = 0 := by simpa [tnat] using h1
    subst hn
    simp [sizeToDensityMap]

theorem assignedDensity_ne_empty (i : Icon) (d : String) (h : assignedDensity i = some d) :
    d ≠ "" := by
  unfold assignedDensity at h
  cases hj : jsOrStr i.density ((iconSize i).bind sizeToDensityMap) with
  | none => rw [hj] at h; simp at h
  | some ds =>
    rw [hj] at h
    by_cases hds : ds = ""
    · simp [hds] at h
    · have : ds = d := by simpa [hds] using h
      rw [← this]
      exact hds

theorem lookupA_iconLoopStep (st : List (String × Icon) × Option Icon) (i : Icon) (d : String) :
    lookupA (iconLoopStep st i).1 d =
      (if assignedDensity i = some d then
        (match lookupA st.1 d with
          | some p => if p.platform then some p else some i
          | none => some i)
      else lookupA st.1 d) := by
  by_cases hdef : isDefaultIcon i = true
  · have ha := assignedDensity_of_default i hdef
    unfold iconLoopStep
    rw [if_pos hdef]
    cases st.2 <;> simp [ha]
  · have hdef2 : isDefaultIcon i = false := by revert hdef; cases isDefaultIcon i <;> simp
    have hstep : (iconLoopStep st i).1 = parseIconStep st.1 i (iconSize i) := by
      unfold iconLoopStep
      rw [hdef2]
      simp
    rw [hstep]
    cases hj : jsOrStr i.density ((iconSize i).bind sizeToDensityMap) with
    | none =>
      have hass : assignedDensity i = none := by
        unfold assignedDensity
        rw [hj]
      have hparse : parseIconStep st.1 i (iconSize i) = st.1 := by
        unfold parseIconStep
        rw [hj]
      rw [hparse, hass]
      simp
    | some ds =>
      by_cases hds : ds = ""
      · have hass : assignedDensity i = none := by
          unfold assignedDensity
          rw [hj]
          simp [hds]
        have hparse : parseIconStep st.1 i (iconSize i) = st.1 := by
          unfold parseIconStep
          rw [hj]
          simp [hds]
        rw [hparse, hass]
        simp
      · have hass : assignedDensity i = some ds := by
          unfold assignedDensity
          rw [hj]
          simp [hds]
        have hparse : parseIconStep st.1 i (iconSize i) =
            (match lookupA st.1 ds with
              | some previous => if previous.platform then st.1 else updateA st.1 ds i
              | none => updateA st.1 ds i) := by
          unfold parseIconStep
          rw [hj]
          simp [hds]
        rw [hparse, hass]
        cases hl : lookupA st.1 ds with
        | some prev =>
          cases hp : prev.platform
          · simp only [hp, Bool.false_eq_true, if_false]
            rw [lookupA_updateA]
            by_cases hdd : d = ds
            · subst hdd
              simp [hl, hp]
            · have hsd : ¬(some ds = some d) := by simpa using fun h => hdd h.symm
              simp [hdd, hsd]
          · simp only [hp, if_true]
            by_cases hdd : d = ds
            · subst hdd
              simp [hl, hp]
            · have hsd : ¬(some ds = some d) := by simpa using fun h => hdd h.symm
              simp [hsd]
        | none =>
          rw [lookupA_updateA]
          by_cases hdd : d = ds
          · subst hdd
            simp [hl]
          · have hsd : ¬(some ds = some d) := by simpa using fun h => hdd h.symm
            simp [hdd, hsd]

theorem iconSpecSelect_cons (i : Icon) (rest : List Icon) (d : String) :
    iconSpecSelect (i :: rest) d =
      (if assignedDensity i = some d then
        (if i.platform then some i
         else
           match iconSpecSelect rest d with
           | some j => some j
           | none => some i)
      else iconSpecSelect rest d) := by
  by_cases ha : assignedDensity i = some d
  · have hfc : iconsAt (i :: rest) d = i :: iconsAt rest d := by
      unfold iconsAt
      simp [List.filter_cons, ha]
    unfold iconSpecSelect
    rw [hfc]
    cases hp : i.platform
    · rw [List.find?_cons_of_neg _ (by simp [hp])]
      cases hf : (iconsAt rest d).find? (fun j => j.platform) with
      | some j => simp [ha, hp, hf]
      | none =>
        cases hrest : iconsAt rest d with
        | nil => simp [ha, hp, hf, hrest]
        | cons x xs =>
          cases hg : (x :: xs).getLast? with
          | none => simp at hg
          | some y => simp [ha, hp, hf, hrest, List.getLast?_cons_cons, hg]
    · rw [List.find?_cons_of_pos _ (by simp [hp])]
      simp [ha, hp]
  · have hfc : iconsAt (i :: rest) d = iconsAt rest d := by
      unfold iconsAt
      simp [List.filter_cons, ha]
    unfold iconSpecSelect
    rw [hfc]
    simp [ha]

theorem selectFrom_nil (prev : Option Icon) (d : String) : selectFrom prev [] d = prev := by
  cases prev with
  | none => rfl
  | some p => cases hp : p.platform <;> simp [selectFrom, iconSpecSelect, iconsAt, hp]

theorem selectFrom_cons (prev : Option Icon) (i : Icon) (rest : List Icon) (d : String) :
    selectFrom prev (i :: rest) d =
      selectFrom
        (if assignedDensity i = some d then
          (match prev with
            | some p => if p.platform then some p else some i
            | none => some i)
        else prev) rest d := by
  by_cases ha : assignedDensity i = some d
  · cases prev with
    | none =>
      simp only [selectFrom, iconSpecSelect_cons, ha, if_pos rfl]
      cases hip : i.platform
      · cases hr : iconSpecSelect rest d <;> simp [selectFrom, hip, hr]
      · simp [selectFrom, hip]
    | some p =>
      cases hp : p.platform
      · simp only [selectFrom, hp, Bool.false_eq_true, if_false, iconSpecSelect_cons,
          ha, if_pos rfl]
        cases hip : i.platform
        · cases hr : iconSpecSelect rest d <;> simp [selectFrom, hip, hr]
        · simp [selectFrom, hip]
      · simp [selectFrom, hp, ha]
  · cases prev with
    | none => simp [selectFrom, iconSpecSelect_cons, ha]
    | some p => cases hp : p.platform <;> simp [selectFrom, iconSpecSelect_cons, ha, hp]

theorem foldl_iconLoopStep_lookup (icons : List Icon) (st : List (String × Icon) × Option Icon)
    (d : String) :
    lookupA (icons.foldl iconLoopStep st).1 d = selectFrom (lookupA st.1 d) icons d := by
  induction icons generalizing st with
  | nil => simp [selectFrom_nil]
  | cons i rest ih =>
    rw [List.foldl_cons, ih, selectFrom_cons, lookupA_iconLoopStep]

theorem handleIconsFold_lookup (icons : List Icon) (d : String) :
    lookupA (handleIconsFold icons).1 d = iconSpecSelect icons d := by
  unfold handleIconsFold
  rw [foldl_iconLoopStep_lookup]
  simp [lookupA, selectFrom]

theorem mem_of_getLast?_eq_some {l : List Icon} {a : Icon} (h : l.getLast? = some a) : a ∈ l := by
  cases l with
  | nil => simp at h
  | cons x xs =>
    have hne : x :: xs ≠ [] := by simp
    rw [List.getLast?_eq_getLast_of_ne_nil hne] at h
    have hx : (x :: xs).getLast hne = a := by simpa using h
    rw [← hx]
    exact List.getLast_mem hne

theorem iconSpecSelect_assigned (icons : List Icon) (d : String) (i : Icon)
    (h : iconSpecSelect icons d = some i) : assignedDensity i = some d := by
  have hmem : i ∈ iconsAt icons d := by
    unfold iconSpecSelect at h
    cases hf : (iconsAt icons d).find? (fun j => j.platform) with
    | some j =>
      rw [hf] at h
      have hj : j = i := by simpa using h
      subst hj
      exact List.mem_of_find?_eq_some hf
    | none =>
      rw [hf] at h
      exact mem_of_getLast?_eq_some h
  unfold iconsAt at hmem
  have hb := (List.mem_filter.mp hmem).2
  simpa using hb

/-- Claim C1: for a non-empty icon list, the android_icons object of handleIcons
holds at every density d exactly the claim's selection (explicit density
attribute, else the 36/48/72/96/144/192 size map on width then height; first
truthy-platform icon wins, otherwise the last in list order); every selected
winner is passed to copyImage with name icon.png toward the res/drawable-d
folder; and an icon with no density attribute and unmapped size is never
selected for any density. -/
theorem handleIcons_best_fit (projRoot platRoot : String) (icons : List Icon)
    (hne : icons ≠ []) (d : String) :
    lookupA (handleIconsFold icons).1 d = iconSpecSelect icons d
    ∧ (∀ i, iconSpecSelect icons d = some i →
        d ≠ ""
        ∧ (copyImage (pathJoin projRoot i.src) (pathJoin platRoot "res") d "icon.png" []).destFolder
            = pathJoin (pathJoin platRoot "res") ("drawable-" ++ d)
        ∧ ({ src := pathJoin projRoot i.src, dest := pathJoin platRoot "res", density := d,
             name := "icon.png" } : CopyCall) ∈ handleIcons projRoot platRoot icons)
    ∧ (∀ i ∈ icons, assignedDensity i = none → iconSpecSelect icons d ≠ some i) := by
  refine ⟨handleIconsFold_lookup icons d, ?_, ?_⟩
  · intro i hsel
    have hassigned := iconSpecSelect_assigned icons d i hsel
    have hdne : d ≠ "" := assignedDensity_ne_empty i d hassigned
    refine ⟨hdne, ?_, ?_⟩
    · unfold copyImage
      simp [hdne]
    · have hlook : lookupA (handleIconsFold icons).1 d = some i := by
        rw [handleIconsFold_lookup]
        exact hsel
      have hmem := lookupA_mem _ _ _ hlook
      have hcall :
          CopyCall.mk (pathJoin projRoot i.src) (pathJoin platRoot "res") d "icon.png"
            ∈ iconDensityCallsOf projRoot platRoot (handleIconsFold icons).1 := by
        unfold iconDensityCallsOf
        exact List.mem_map_of_mem _ hmem
      have hlen : (icons.length == 0) = false := by
        cases icons with
        | nil => exact absurd rfl hne
        | cons _ _ => rfl
      unfold handleIcons
      rw [hlen]
      simp only [Bool.false_eq_true, if_false]
      cases h2 : (handleIconsFold icons).2 with
      | none => simpa [h2] using hcall
      | some dflt =>
        cases hm : lookupA (handleIconsFold icons).1 "mdpi" with
        | none =>
          simp only [h2, hm]
          exact List.mem_append_left _ hcall
        | some j => simpa [h2, hm] using hcall
  · intro i hi hnone hsel
    have := iconSpecSelect_assigned icons d i hsel
    rw [hnone] at this
    exact Option.noConfusion this

theorem handleIcons_best_fit_witness :
    "mdpi" ≠ ""
    ∧ (copyImage (pathJoin "proj" "b.png") (pathJoin "plat" "res") "mdpi" "icon.png" []).destFolder
        = pathJoin (pathJoin "plat" "res") ("drawable-" ++ "mdpi")
    ∧ ({ src := pathJoin "proj" "b.png", dest := pathJoin "plat" "res", density := "mdpi",
         name := "icon.png" } : CopyCall) ∈ handleIcons "proj" "plat" iconsEx :=
  (handleIcons_best_fit "proj" "plat" iconsEx (by decide) "mdpi").2.1
    { src := "b.png", density := some "mdpi", width := none, height := none, platform := true }
    (by decide)

/-! ## C10: default resources and the mdpi slot -/

theorem foldl_iconLoopStep_snd (icons : List Icon) (st : List (String × Icon) × Option Icon) :
    (icons.foldl iconLoopStep st).2 =
      (match st.2 with
        | some x => some x
        | none => icons.find? isDefaultIcon) := by
  induction icons generalizing st with
  | nil => cases h : st.2 <;> simp [h]
  | cons i rest ih =>
    rw [List.foldl_cons, ih]
    by_cases hdef : isDefaultIcon i = true
    · cases hs : st.2 with
      | none =>
        have h2 : (iconLoopStep st i).2 = some i := by simp [iconLoopStep, hdef, hs]
        rw [h2, List.find?_cons_of_pos _ hdef]
      | some x =>
        have h2 : (iconLoopStep st i).2 = some x := by simp [iconLoopStep, hdef, hs]
        rw [h2]
    · have hdef2 : isDefaultIcon i = false := by revert hdef; cases isDefaultIcon i <;> simp
      have h2 : (iconLoopStep st i).2 = st.2 := by simp [iconLoopStep, hdef2]
      rw [h2]
      cases hs : st.2 <;> simp [hs, List.find?_cons_of_neg _ hdef]

theorem foldl_splashStep_fst (pr dest : String) (rs : List Splash) (st : Bool × List CopyCall) :
    (rs.foldl (splashStep pr dest) st).1 =
      (st.1 || rs.any (fun r => tstr r.density && (r.density == some "mdpi"))) := by
  induction rs generalizing st with
  | nil => simp
  | cons r rest ih =>
    rw [List.foldl_cons, ih]
    cases ht : tstr r.density
    · have h1 : splashStep pr dest st r = st := by simp [splashStep, ht]
      rw [h1]
      simp [List.any_cons, ht]
    · have h1 : (splashStep pr dest st r).1 = (st.1 || (r.density == some "mdpi")) := by
        simp [splashStep, ht]
      rw [h1]
      simp [List.any_cons, ht, Bool.or_assoc]

theorem foldl_splashStep_snd (pr dest : String) (rs : List Splash) (st : Bool × List CopyCall) :
    (rs.foldl (splashStep pr dest) st).2 =
      st.2 ++ (rs.filter (fun r => tstr r.density)).map
        (fun r => CopyCall.mk (pathJoin pr r.src) dest (r.density.getD "") "screen.png") := by
  induction rs generalizing st with
  | nil => simp
  | cons r rest ih =>
    rw [List.foldl_cons, ih]
    cases ht : tstr r.density
    · have h1 : splashStep pr dest st r = st := by simp [splashStep, ht]
      rw [h1]
      simp [List.filter_cons, ht]
    · have h1 : (splashStep pr dest st r).2 =
          st.2 ++ [CopyCall.mk (pathJoin pr r.src) dest (r.density.getD "") "screen.png"] := by
        simp [splashStep, ht]
      rw [h1]
      simp [List.filter_cons, ht]

theorem mdpi_any_iff (rs : List Splash) :
    (rs.any (fun r => tstr r.density && (r.density == some "mdpi")) = true) ↔
      (∃ r ∈ rs, r.density = some "mdpi") := by
  rw [List.any_eq_true]
  constructor
  · rintro ⟨r, hr, hb⟩
    rw [Bool.and_eq_true] at hb
    exact ⟨r, hr, by simpa using hb.2⟩
  · rintro ⟨r, hr, hd⟩
    refine ⟨r, hr, ?_⟩
    rw [hd]
    decide

/-- Claim C10: a density-less default resource reaches the mdpi slot exactly
when no listed resource was assigned to mdpi, in both handleIcons and
handleSplashes; and handleSplashes copies exactly the entries with a truthy
density attribute (a density-less splash entry is skipped), so only the
default resource can act without a density. -/
theorem default_resources_to_mdpi (projRoot platRoot : String) (icons : List Icon)
    (splashes : List Splash) (defRes : Splash) (di : Icon)
    (hdi : icons.find? isDefaultIcon = some di)
    (hmem : defRes ∈ splashes) (hden : tstr defRes.density = false) :
    (iconSpecSelect icons "mdpi" = none →
      (handleIcons projRoot platRoot icons).getLast? =
        some (CopyCall.mk (pathJoin projRoot di.src) (pathJoin platRoot "res") "mdpi" "icon.png"))
    ∧ (∀ j, iconSpecSelect icons "mdpi" = some j →
        handleIcons projRoot platRoot icons =
          iconDensityCallsOf projRoot platRoot (handleIconsFold icons).1)
    ∧ ((¬ ∃ r ∈ splashes, r.density = some "mdpi") →
        handleSplashes projRoot platRoot splashes (some defRes) =
          splashDensityCalls projRoot platRoot splashes
            ++ [CopyCall.mk (pathJoin projRoot defRes.src) (pathJoin platRoot "res")
                  "mdpi" "screen.png"])
    ∧ ((∃ r ∈ splashes, r.density = some "mdpi") →
        handleSplashes projRoot platRoot splashes (some defRes) =
          splashDensityCalls projRoot platRoot splashes)
    ∧ splashDensityCalls projRoot platRoot splashes =
        (splashes.filter (fun r => tstr r.density)).map
          (fun r => CopyCall.mk (pathJoin projRoot r.src) (pathJoin platRoot "res")
            (r.density.getD "") "screen.png") := by
  have hne : icons ≠ [] := by
    intro h
    rw [h] at hdi
    simp at hdi
  have hlen : (icons.length == 0) = false := by
    cases icons with
    | nil => exact absurd rfl hne
    | cons _ _ => rfl
  have hst2 : (handleIconsFold icons).2 = some di := by
    unfold handleIconsFold
    rw [foldl_iconLoopStep_snd]
    simpa using hdi
  have hslen : (splashes.length == 0) = false := by
    cases splashes with
    | nil => simp at hmem
    | cons _ _ => rfl
  refine ⟨?_, ?_, ?_, ?_, ?_⟩
  · intro hmd
    have hlookup : lookupA (handleIconsFold icons).1 "mdpi" = none := by
      rw [handleIconsFold_lookup]
      exact hmd
    unfold handleIcons
    rw [hlen]
    simp only [Bool.false_eq_true, if_false, hst2, hlookup]
    exact List.getLast?_concat _
  · intro j hj
    have hlookup : lookupA (handleIconsFold icons).1 "mdpi" = some j := by
      rw [handleIconsFold_lookup]
      exact hj
    unfold handleIcons
    rw [hlen]
    simp only [Bool.false_eq_true, if_false, hst2, hlookup]
  · intro hno
    have hany : (splashes.any (fun r => tstr r.density && (r.density == some "mdpi"))) = false := by
      cases h : splashes.any (fun r => tstr r.density && (r.density == some "mdpi"))
      · rfl
      · exact absurd ((mdpi_any_iff splashes).mp h) hno
    unfold handleSplashes splashDensityCalls
    rw [hslen]
    simp only [Bool.false_eq_true, if_false]
    rw [foldl_splashStep_fst, hany]
    simp
  · intro hyes
    have hany : (splashes.any (fun r => tstr r.density && (r.density == some "mdpi"))) = true :=
      (mdpi_any_iff splashes).mpr hyes
    unfold handleSplashes splashDensityCalls
    rw [hslen]
    simp only [Bool.false_eq_true, if_false]
    rw [foldl_splashStep_fst, hany]
    simp
  · unfold splashDensityCalls
    rw [foldl_splashStep_snd]
    simp

theorem default_resources_to_mdpi_witness :
    handleSplashes "p" "q" splashesEx (some defaultSplashEx) =
      splashDensityCalls "p" "q" splashesEx
        ++ [CopyCall.mk (pathJoin "p" "t.png") (pathJoin "q" "res") "mdpi" "screen.png"] :=
  (default_resources_to_mdpi "p" "q" iconsDefaultEx splashesEx defaultSplashEx defaultIconEx
    (by decide) (by decide) (by decide)).2.2.1 (by decide)

/-! ## C2: package identifier derivation -/

/-- Claim C2: the native package identifier written to the manifest is the
Android-specific package name when truthy, otherwise the generic package name,
with every dash replaced by an underscore; the strings-and-manifest stage
writes exactly this identifier, and a successful full run preserves it. -/
theorem updateProject_package_id (cfg : Config) (root : List String) (st : ProjState) :
    (manifestStage cfg st).manifest.packageId =
      String.mk
        ((match cfg.android_packageName with
          | some s => if s = "" then cfg.packageName.getD "" else s
          | none => cfg.packageName.getD "").data.map (fun c => if c = '-' then '_' else c))
    ∧ (∀ st2, updateProjectAccordingTo cfg root st = Except.ok st2 →
        st2.manifest.packageId = (manifestStage cfg st).manifest.packageId) := by
  constructor
  · show derivePkg cfg = _
    unfold derivePkg replaceDashes jsOrStr
    cases h : cfg.android_packageName with
    | none => simp [tstr]
    | some s =>
      by_cases hs : s = ""
      · simp [tstr, hs]
      · simp [tstr, hs]
  · intro st2 h2
    simp only [updateProjectAccordingTo] at h2
    cases hr : relocateJava (derivePkg cfg) st.manifest.packageId root (manifestStage cfg st).fs with
    | error e =>
      rw [hr] at h2
      simp [Except.map] at h2
    | ok fs2 =>
      rw [hr] at h2
      simp only [Except.map, Except.ok.injEq] at h2
      rw [← h2]

theorem updateProject_package_id_witness :
    stExpectedC2.manifest.packageId = (manifestStage cfgEx stEx).manifest.packageId :=
  (updateProject_package_id cfgEx ["r"] stEx).2 stExpectedC2 (by rfl)

/-! ## Path-ancestry toolkit for C3 and C4 -/

theorem below_eq (a b : List String) : below a b = true ↔ a = b.take a.length := by
  simp [below]

theorem below_refl (a : List String) : below a a = true := by
  simp [below]

theorem below_append (a b : List String) : below a (a ++ b) = true := by
  rw [below_eq, List.take_left]

theorem below_length_le (a b : List String) (h : below a b = true) : a.length ≤ b.length := by
  rw [below_eq] at h
  have hl := congrArg List.length h
  rw [List.length_take] at hl
  omega

theorem below_antisymm (a b : List String) (h1 : below a b = true) (h2 : below b a = true) :
    a = b := by
  have l1 := below_length_le a b h1
  have l2 := below_length_le b a h2
  have hlen : a.length = b.length := Nat.le_antisymm l1 l2
  rw [below_eq] at h1
  rw [h1, hlen, List.take_length]

theorem below_take (a b : List String) (k : Nat) (h : below a b = true) (hk : a.length ≤ k) :
    below a (b.take k) = true := by
  rw [below_eq] at h ⊢
  rw [List.take_take, Nat.min_eq_left hk]
  exact h

theorem below_dropLast_of_ne (a b : List String) (h : below a b = true) (hne : a ≠ b) :
    below a b.dropLast = true := by
  have hlt : a.length < b.length := by
    have hle := below_length_le a b h
    rcases Nat.lt_or_ge a.length b.length with h1 | h1
    · exact h1
    · have heq : a.length = b.length := Nat.le_antisymm hle h1
      rw [below_eq] at h
      rw [heq, List.take_length] at h
      exact absurd h hne
  rw [List.dropLast_eq_take]
  exact below_take a b (b.length - 1) h (by omega)

theorem below_of_below_dropLast (a b : List String) (h : below a b.dropLast = true) :
    below a b = true := by
  have hle : a.length ≤ b.dropLast.length := below_length_le a b.dropLast h
  rw [below_eq] at h ⊢
  rw [List.dropLast_eq_take] at h hle
  rw [List.take_take] at h
  have hlen : a.length ≤ b.length - 1 := by
    rw [List.length_take] at hle
    omega
  rw [Nat.min_eq_left hlen] at h
  exact h

theorem dropLast_take_succ (cur : List String) (k : Nat) (hk : k + 1 ≤ cur.length) :
    (cur.take (k + 1)).dropLast = cur.take k := by
  have h1 : (cur.take (k + 1)).length = k + 1 := by
    rw [List.length_take]
    omega
  rw [List.dropLast_eq_take, h1, List.take_take]
  congr 1
  omega

theorem contains_iff_mem_dirs (l : List (List String)) (d : List String) :
    l.contains d = true ↔ d ∈ l := by
  simp [List.contains, List.elem_iff]

theorem dirsClosed_iff (fs : FS) :
    dirsClosedB fs = true ↔ ∀ d ∈ fs.dirs, 2 ≤ d.length → d.dropLast ∈ fs.dirs := by
  unfold dirsClosedB
  rw [List.all_eq_true]
  constructor
  · intro h d hd hlen
    have := h d hd
    rw [if_pos hlen] at this
    exact (contains_iff_mem_dirs _ _).mp this
  · intro h d hd
    by_cases hlen : 2 ≤ d.length
    · rw [if_pos hlen]
      exact (contains_iff_mem_dirs _ _).mpr (h d hd hlen)
    · rw [if_neg hlen]

theorem filesDirs_iff (fs : FS) :
    filesDirsB fs = true ↔ ∀ f ∈ fs.files, f.dirPath ∈ fs.dirs := by
  unfold filesDirsB
  rw [List.all_eq_true]
  constructor
  · intro h f hf
    exact (contains_iff_mem_dirs _ _).mp (h f hf)
  · intro h f hf
    exact (contains_iff_mem_dirs _ _).mpr (h f hf)

theorem dirEmpty_iff (fs : FS) (d : List String) :
    dirEmptyB fs d = true ↔
      (∀ f ∈ fs.files, f.dirPath ≠ d) ∧ (∀ e ∈ fs.dirs, ¬(e.dropLast = d ∧ e ≠ d)) := by
  unfold dirEmptyB
  rw [Bool.and_eq_true, List.all_eq_true, List.all_eq_true]
  constructor
  · rintro ⟨h1, h2⟩
    constructor
    · intro f hf
      have := h1 f hf
      simpa using this
    · intro e he
      have := h2 e he
      intro hcon
      rw [Bool.not_eq_eq_eq_not, Bool.not_true, Bool.and_eq_false_iff] at this
      rcases this with h3 | h3
      · rw [beq_eq_false_iff_ne] at h3
        exact h3 hcon.1
      · rw [bne_eq_false_iff_eq] at h3
        exact hcon.2 h3
  · rintro ⟨h1, h2⟩
    constructor
    · intro f hf
      simpa using h1 f hf
    · intro e he
      have := h2 e he
      rw [Bool.not_eq_eq_eq_not, Bool.not_true, Bool.and_eq_false_iff]
      by_cases hd : e.dropLast = d
      · by_cases hne : e = d
        · right
          rw [bne_eq_false_iff_eq]
          exact hne
        · exact absurd ⟨hd, hne⟩ this
      · left
        rw [beq_eq_false_iff_ne]
        exact hd

theorem dirEmpty_mono (fs1 fs2 : FS) (d : List String)
    (hfiles : fs2.files = fs1.files) (hdirs : ∀ e, e ∈ fs2.dirs → e ∈ fs1.dirs)
    (h : dirEmptyB fs1 d = true) : dirEmptyB fs2 d = true := by
  rw [dirEmpty_iff] at h ⊢
  refine ⟨?_, ?_⟩
  · intro f hf
    exact h.1 f (hfiles ▸ hf)
  · intro e he
    exact h.2 e (hdirs e he)

/-! ## Cleanup-loop lemmas (prepare.js lines 166-175) -/

theorem removeEmptyDirs_files (fs : FS) (cur root : List String) :
    (removeEmptyDirs fs cur root).files = fs.files := by
  induction fs, cur, root using removeEmptyDirs.induct with
  | case1 fs cur root h => rw [removeEmptyDirs, if_pos h]
  | case2 fs cur root h hg ih =>
    rw [removeEmptyDirs, if_neg h, if_pos hg]
    rw [ih]
    rfl
  | case3 fs cur root h hg =>
    rw [removeEmptyDirs, if_neg h, if_neg hg]

theorem removeEmptyDirs_dirs_subset (fs : FS) (cur root : List String) :
    ∀ d, d ∈ (removeEmptyDirs fs cur root).dirs → d ∈ fs.dirs := by
  induction fs, cur, root using removeEmptyDirs.induct with
  | case1 fs cur root h =>
    rw [removeEmptyDirs, if_pos h]
    exact fun d hd => hd
  | case2 fs cur root h hg ih =>
    rw [removeEmptyDirs, if_neg h, if_pos hg]
    intro d hd
    have h1 := ih d hd
    unfold rmdirFS at h1
    exact (List.mem_filter.mp h1).1
  | case3 fs cur root h hg =>
    rw [removeEmptyDirs, if_neg h, if_neg hg]
    exact fun d hd => hd

theorem removeEmptyDirs_removed (fs : FS) (cur root : List String) :
    below root cur = true →
    ∀ d, d ∈ fs.dirs → ¬d ∈ (removeEmptyDirs fs cur root).dirs →
      d ≠ root ∧ below root d = true ∧ below d cur = true
        ∧ dirEmptyB (removeEmptyDirs fs cur root) d = true := by
  induction fs, cur, root using removeEmptyDirs.induct with
  | case1 fs cur root h =>
    intro hroot d hd hnd
    have hres : removeEmptyDirs fs cur root = fs := by rw [removeEmptyDirs, if_pos h]
    rw [hres] at hnd
    exact absurd hd hnd
  | case2 fs cur root h hg ih =>
    intro hroot d hd hnd
    have hres : removeEmptyDirs fs cur root =
        removeEmptyDirs (rmdirFS fs cur) cur.dropLast root := by
      rw [removeEmptyDirs, if_neg h, if_pos hg]
    rw [hres] at hnd ⊢
    have hcr : cur ≠ root := fun hc => h (Or.inl hc)
    have hroot2 : below root cur.dropLast = true :=
      below_dropLast_of_ne root cur hroot (fun hrc => hcr hrc.symm)
    by_cases hdc : d = cur
    · subst hdc
      refine ⟨hcr, hroot, below_refl d, ?_⟩
      have hemp : dirEmptyB fs d = true := by
        have hg2 := hg
        rw [Bool.and_eq_true] at hg2
        exact hg2.2
      apply dirEmpty_mono fs _ d
      · rw [removeEmptyDirs_files]
        rfl
      · intro e he
        have h1 := removeEmptyDirs_dirs_subset _ _ _ e he
        unfold rmdirFS at h1
        exact (List.mem_filter.mp h1).1
      · exact hemp
    · have hd2 : d ∈ (rmdirFS fs cur).dirs := by
        unfold rmdirFS
        rw [List.mem_filter]
        refine ⟨hd, ?_⟩
        simp [hdc]
      have hcore := ih hroot2 d hd2 hnd
      exact ⟨hcore.1, hcore.2.1, below_of_below_dropLast d cur hcore.2.2.1, hcore.2.2.2⟩
  | case3 fs cur root h hg =>
    intro hroot d hd hnd
    have hres : removeEmptyDirs fs cur root = fs := by rw [removeEmptyDirs, if_neg h, if_neg hg]
    rw [hres] at hnd
    exact absurd hd hnd

theorem take_mem_of_closed (fs : FS)
    (hcl : ∀ e ∈ fs.dirs, 2 ≤ e.length → e.dropLast ∈ fs.dirs)
    (c : List String) (hc : c ∈ fs.dirs) (k : Nat) (hk1 : 1 ≤ k) (hk2 : k ≤ c.length) :
    c.take k ∈ fs.dirs := by
  have key : ∀ j, 1 ≤ c.length - j → c.take (c.length - j) ∈ fs.dirs := by
    intro j
    induction j with
    | zero =>
      intro h0
      simpa [List.take_length] using hc
    | succ j ih =>
      intro h1
      have hj : 1 ≤ c.length - j := by omega
      have hmem := ih hj
      have h2 : 2 ≤ (c.take (c.length - j)).length := by
        rw [List.length_take]
        omega
      have hstep := hcl _ hmem h2
      have hdrop : (c.take (c.length - j)).dropLast = c.take (c.length - (j + 1)) := by
        have heq : c.length - j = (c.length - (j + 1)) + 1 := by omega
        rw [heq, dropLast_take_succ c (c.length - (j + 1)) (by omega)]
      rw [hdrop] at hstep
      exact hstep
  have hfin := key (c.length - k)
  rw [Nat.sub_sub_self hk2] at hfin
  exact hfin hk1

theorem removeEmptyDirs_complete (fs : FS) (cur root : List String) :
    (∀ e ∈ fs.dirs, 2 ≤ e.length → e.dropLast ∈ fs.dirs) →
    root ≠ [] →
    below root cur = true →
    cur ∈ fs.dirs →
    ∀ d, d ≠ root → below root d = true → below d cur = true →
      d ∈ (removeEmptyDirs fs cur root).dirs →
      dirEmptyB (removeEmptyDirs fs cur root) d = true → False := by
  induction fs, cur, root using removeEmptyDirs.induct with
  | case1 fs cur root h =>
    intro hcl hrootne hroot hcur d hdr hrd hdc hdin hemp
    rcases h with hc | hc
    · subst hc
      have hdceq : d = cur := below_antisymm d cur hdc hrd
      exact hdr hdceq
    · subst hc
      rw [below_eq] at hroot
      simp at hroot
      exact hrootne hroot
  | case2 fs cur root h hg ih =>
    intro hcl hrootne hroot hcur d hdr hrd hdc hdin hemp
    have hres : removeEmptyDirs fs cur root =
        removeEmptyDirs (rmdirFS fs cur) cur.dropLast root := by
      rw [removeEmptyDirs, if_neg h, if_pos hg]
    rw [hres] at hdin hemp
    have hcr : cur ≠ root := fun hc => h (Or.inl hc)
    have hcn : cur ≠ [] := fun hc => h (Or.inr hc)
    have hempcur : dirEmptyB fs cur = true := by
      have hg2 := hg
      rw [Bool.and_eq_true] at hg2
      exact hg2.2
    by_cases hdcur : d = cur
    · subst hdcur
      have hsub := removeEmptyDirs_dirs_subset (rmdirFS fs d) d.dropLast root d hdin
      unfold rmdirFS at hsub
      have hsub2 := (List.mem_filter.mp hsub).2
      simp at hsub2
    · have hr1 : 1 ≤ root.length := by
        cases hroote : root with
        | nil => exact absurd hroote hrootne
        | cons a t => simp
      have hcn1 : 1 ≤ cur.length := by
        cases hcne : cur with
        | nil => exact absurd hcne hcn
        | cons a t => simp
      have hlt2 : 2 ≤ cur.length := by
        by_contra hcon
        have hclen1 : cur.length = 1 := by omega
        have hle := below_length_le root cur hroot
        have hrlen : root.length = cur.length := by omega
        have hreq : root = cur := by
          rw [below_eq] at hroot
          rw [hroot, hrlen, List.take_length]
        exact hcr hreq.symm
      have hdropmem : cur.dropLast ∈ fs.dirs := hcl cur hcur hlt2
      have hdropne : cur.dropLast ≠ cur := by
        intro hcon
        have hlencon := congrArg List.length hcon
        rw [List.dropLast_eq_take, List.length_take] at hlencon
        omega
      have hdrop2 : cur.dropLast ∈ (rmdirFS fs cur).dirs := by
        unfold rmdirFS
        rw [List.mem_filter]
        exact ⟨hdropmem, by simp [hdropne]⟩
      have hcl2 : ∀ e ∈ (rmdirFS fs cur).dirs, 2 ≤ e.length →
          e.dropLast ∈ (rmdirFS fs cur).dirs := by
        intro e he hel
        unfold rmdirFS at he ⊢
        rw [List.mem_filter] at he
        have hmem := hcl e he.1 hel
        rw [List.mem_filter]
        refine ⟨hmem, ?_⟩
        have hene : e ≠ cur := by
          have := he.2
          simp at this
          exact this
        have hnotentry := (dirEmpty_iff fs cur).mp hempcur |>.2 e he.1
        by_cases hco : e.dropLast = cur
        · exact absurd ⟨hco, hene⟩ hnotentry
        · simp [hco]
      have hroot2 : below root cur.dropLast = true :=
        below_dropLast_of_ne root cur hroot (fun hrc => hcr hrc.symm)
      have hdc2 : below d cur.dropLast = true := below_dropLast_of_ne d cur hdc hdcur
      exact ih hcl2 hrootne hroot2 hdrop2 d hdr hrd hdc2 hdin hemp
  | case3 fs cur root h hg =>
    intro hcl hrootne hroot hcur d hdr hrd hdc hdin hemp
    have hres : removeEmptyDirs fs cur root = fs := by rw [removeEmptyDirs, if_neg h, if_neg hg]
    rw [hres] at hdin hemp
    have hex : dirExistsB fs cur = true := by
      unfold dirExistsB
      exact (contains_iff_mem_dirs _ _).mpr hcur
    have hempf : dirEmptyB fs cur = false := by
      cases hec : dirEmptyB fs cur
      · rfl
      · exact absurd (by rw [Bool.and_eq_true]; exact ⟨hex, hec⟩) hg
    by_cases hdcur : d = cur
    · subst hdcur
      rw [hempf] at hemp
      exact Bool.noConfusion hemp
    · have hlt : d.length < cur.length := by
        have hle := below_length_le d cur hdc
        rcases Nat.lt_or_ge d.length cur.length with h1 | h1
        · exact h1
        · have heq : d.length = cur.length := Nat.le_antisymm hle h1
          rw [below_eq] at hdc
          rw [heq, List.take_length] at hdc
          exact absurd hdc hdcur
      have hemem : cur.take (d.length + 1) ∈ fs.dirs :=
        take_mem_of_closed fs hcl cur hcur (d.length + 1) (by omega) (by omega)
      have hedrop : (cur.take (d.length + 1)).dropLast = d := by
        rw [dropLast_take_succ cur d.length (by omega)]
        rw [below_eq] at hdc
        exact hdc.symm
      have hene : cur.take (d.length + 1) ≠ d := by
        intro hcon
        have hlencon := congrArg List.length hcon
        rw [List.length_take] at hlencon
        omega
      have hnotentry := (dirEmpty_iff fs d).mp hemp |>.2 _ hemem
      exact hnotentry ⟨hedrop, hene⟩

/-! ## Candidate listing, package-path injectivity, file operations -/

theorem mem_insertSorted (f a : SrcFile) (l : List SrcFile) :
    a ∈ insertSorted f l ↔ a = f ∨ a ∈ l := by
  induction l with
  | nil => simp [insertSorted]
  | cons g gs ih =>
    unfold insertSorted
    by_cases hle : strLeB f.name g.name = true
    · rw [if_pos hle]
      simp [List.mem_cons]
    · rw [if_neg hle]
      simp only [List.mem_cons, ih]
      tauto

theorem mem_sortFiles (a : SrcFile) (l : List SrcFile) : a ∈ sortFiles l ↔ a ∈ l := by
  induction l with
  | nil => simp [sortFiles]
  | cons g gs ih =>
    unfold sortFiles at ih ⊢
    rw [List.foldr_cons, mem_insertSorted, ih, List.mem_cons]

theorem javaCandidates_mem (fs : FS) (root : List String) (orig : String) (f : SrcFile)
    (h : f ∈ javaCandidates fs root orig) :
    f ∈ fs.files ∧ f.dirPath = srcRootOf root ++ splitDots orig := by
  unfold javaCandidates at h
  have h1 := (List.mem_filter.mp h).1
  rw [mem_sortFiles] at h1
  have h2 := List.mem_filter.mp h1
  refine ⟨h2.1, ?_⟩
  have h3 := h2.2
  rw [Bool.and_eq_true] at h3
  exact eq_of_beq h3.1

theorem splitSepsChar_ne_nil (l : List Char) : splitSepsChar l ≠ [] := by
  induction l with
  | nil => simp [splitSepsChar]
  | cons c cs ih =>
    unfold splitSepsChar
    cases hs : splitSepsChar cs with
    | nil => exact absurd hs ih
    | cons h t =>
      by_cases hc : c = '.' ∨ c = '/'
      · simp [hc]
      · simp [hc]

theorem joinChar_splitSepsChar (l : List Char) (hsl : ∀ c ∈ l, c ≠ '/') :
    joinChar (splitSepsChar l) = l := by
  induction l with
  | nil => rfl
  | cons c cs ih =>
    have hcs : ∀ x ∈ cs, x ≠ '/' := fun x hx => hsl x (List.mem_cons_of_mem c hx)
    have hihc := ih hcs
    cases hs : splitSepsChar cs with
    | nil => exact absurd hs (splitSepsChar_ne_nil cs)
    | cons hh tt =>
      rw [hs] at hihc
      have hsplit : splitSepsChar (c :: cs) =
          (if c = '.' ∨ c = '/' then [] :: hh :: tt else (c :: hh) :: tt) := by
        unfold splitSepsChar
        rw [hs]
      rw [hsplit]
      by_cases hc : c = '.' ∨ c = '/'
      · have hdot : c = '.' := by
          rcases hc with h1 | h1
          · exact h1
          · exact absurd h1 (hsl c (List.mem_cons_self c cs))
        rw [if_pos hc, hdot]
        simp only [joinChar]
        rw [hihc]
        rfl
      · rw [if_neg hc]
        cases tt with
        | nil =>
          simp only [joinChar] at hihc ⊢
          rw [hihc]
        | cons t1 ts =>
          simp only [joinChar] at hihc ⊢
          rw [List.cons_append, hihc]

theorem splitDots_inj (p q : String)
    (hp : ∀ c ∈ p.data, c ≠ '/') (hq : ∀ c ∈ q.data, c ≠ '/')
    (h : splitDots p = splitDots q) : p = q := by
  unfold splitDots at h
  have hinj : Function.Injective String.mk := fun a b hab => by injection hab
  have hseq : splitSepsChar p.data = splitSepsChar q.data :=
    List.map_injective_iff.mpr hinj h
  have hp2 := joinChar_splitSepsChar p.data hp
  have hq2 := joinChar_splitSepsChar q.data hq
  have hd : p.data = q.data := by rw [← hp2, ← hq2, hseq]
  cases p
  cases q
  exact congrArg String.mk hd

theorem validPkg_noSlash (p : String) (h : validPkgB p = true) : ∀ c ∈ p.data, c ≠ '/' := by
  unfold validPkgB at h
  rw [Bool.and_eq_true, Bool.and_eq_true] at h
  have h2 := h.1.2
  rw [List.all_eq_true] at h2
  intro c hc
  have h3 := h2 c hc
  simpa using h3

theorem splitDots_ne_of_valid (p q : String) (hp : validPkgB p = true) (hq : validPkgB q = true)
    (hne : p ≠ q) : splitDots p ≠ splitDots q := by
  intro hcon
  exact hne (splitDots_inj p q (validPkg_noSlash p hp) (validPkg_noSlash q hq) hcon)

theorem getFileFS_write (fs : FS) (nf : SrcFile) :
    getFileFS (writeFileFS fs nf) nf.dirPath nf.name = some nf := by
  unfold getFileFS writeFileFS
  rw [List.find?_append]
  have h1 : (fs.files.filter
      (fun g => !(g.dirPath == nf.dirPath && g.name == nf.name))).find?
        (fun g => g.dirPath == nf.dirPath && g.name == nf.name) = none := by
    apply List.find?_eq_none.mpr
    intro g hg
    have h2 := (List.mem_filter.mp hg).2
    rw [Bool.not_eq_eq_eq_not, Bool.not_true] at h2
    rw [h2]
    simp
  rw [h1]
  simp [List.find?]

theorem getFileFS_rm (fs : FS) (d : List String) (n : String) :
    getFileFS (rmFileAt fs d n) d n = none := by
  unfold getFileFS rmFileAt
  apply List.find?_eq_none.mpr
  intro g hg
  have h2 := (List.mem_filter.mp hg).2
  rw [Bool.not_eq_eq_eq_not, Bool.not_true] at h2
  rw [h2]
  simp

theorem getFileFS_rm_other (fs : FS) (d2 : List String) (n2 : String) (d : List String)
    (n : String) (hne : d ≠ d2) :
    getFileFS (rmFileAt fs d2 n2) d n = getFileFS fs d n := by
  unfold getFileFS rmFileAt
  apply find_filter_of_none
  intro g hg
  rw [Bool.and_eq_true] at hg
  have hgd : g.dirPath = d := eq_of_beq hg.1
  have hf : (g.dirPath == d2) = false := by
    rw [beq_eq_false_iff_ne, hgd]
    exact hne
  simp [hf]

theorem getFileFS_removeEmptyDirs (fs : FS) (cur root d : List String) (n : String) :
    getFileFS (removeEmptyDirs fs cur root) d n = getFileFS fs d n := by
  unfold getFileFS
  rw [removeEmptyDirs_files]

theorem mem_mkdirP (fs : FS) (D d : List String) :
    d ∈ (mkdirP fs D).dirs ↔ d ∈ fs.dirs ∨ d ∈ pathPrefixes D := by
  unfold mkdirP
  rw [List.mem_append, List.mem_filter]
  constructor
  · rintro (h | h)
    · exact Or.inl h
    · exact Or.inr h.1
  · rintro (h | h)
    · exact Or.inl h
    · by_cases hf : d ∈ fs.dirs
      · exact Or.inl hf
      · right
        refine ⟨h, ?_⟩
        have hc : fs.dirs.contains d = false := by
          cases hcc : fs.dirs.contains d
          · rfl
          · exact absurd ((contains_iff_mem_dirs _ _).mp hcc) hf
        rw [hc]
        rfl

theorem dirsClosed_mkdirP (fs : FS) (D : List String)
    (hcl : ∀ e ∈ fs.dirs, 2 ≤ e.length → e.dropLast ∈ fs.dirs) :
    ∀ e ∈ (mkdirP fs D).dirs, 2 ≤ e.length → e.dropLast ∈ (mkdirP fs D).dirs := by
  intro e he hel
  rw [mem_mkdirP] at he ⊢
  rcases he with h | h
  · exact Or.inl (hcl e h hel)
  · unfold pathPrefixes at h ⊢
    rw [List.mem_map] at h
    obtain ⟨k, hk, hek⟩ := h
    rw [List.mem_range] at hk
    right
    rw [List.mem_map]
    have helen : e.length = min (k + 1) D.length := by
      rw [← hek, List.length_take]
    have hk1 : 1 ≤ k := by omega
    refine ⟨k - 1, ?_, ?_⟩
    · rw [List.mem_range]
      omega
    · have hdrop : e.dropLast = D.take k := by
        rw [← hek, dropLast_take_succ D k (by omega)]
      rw [hdrop]
      congr 1
      omega

/-! ## C4: error handling of the relocation -/

theorem getFileFS_write_at (fs : FS) (nf : SrcFile) (d : List String) (n : String)
    (hd : nf.dirPath = d) (hn : nf.name = n) :
    getFileFS (writeFileFS fs nf) d n = some nf := by
  subst hd
  subst hn
  exact getFileFS_write fs nf

theorem relocateJava_cons (pkg orig : String) (root : List String) (fs : FS) (f : SrcFile)
    (rest : List SrcFile) (hc : javaCandidates fs root orig = f :: rest) :
    relocateJava pkg orig root fs =
      (if orig ≠ pkg then Except.ok (relocatedFS pkg root fs f)
       else Except.ok (writtenFS pkg root fs f)) := by
  unfold relocateJava relocatedFS writtenFS
  rw [hc]

/-- Claim C4: updateProjectAccordingTo throws a CordovaError exactly when no
Java file in the original package directory matches extends CordovaActivity;
with two or more matching files it does not fail and relocates the first one. -/
theorem updateProject_error_handling (cfg : Config) (root : List String) (st : ProjState) :
    ((∃ e, updateProjectAccordingTo cfg root st = Except.error e) ↔
      javaCandidates st.fs root st.manifest.packageId = [])
    ∧ (∀ f g rest, javaCandidates st.fs root st.manifest.packageId = f :: g :: rest →
        validPkgB (derivePkg cfg) = true → validPkgB st.manifest.packageId = true →
        ∃ st2, updateProjectAccordingTo cfg root st = Except.ok st2
          ∧ (getFileFS st2.fs (srcRootOf root ++ splitDots (derivePkg cfg)) f.name).isSome
              = true) := by
  have hfs : (manifestStage cfg st).fs = st.fs := rfl
  constructor
  · constructor
    · rintro ⟨e, he⟩
      simp only [updateProjectAccordingTo] at he
      rw [hfs] at he
      cases hc : javaCandidates st.fs root st.manifest.packageId with
      | nil => rfl
      | cons f rest =>
        exfalso
        rw [relocateJava_cons (derivePkg cfg) st.manifest.packageId root st.fs f rest hc] at he
        by_cases horig : st.manifest.packageId ≠ derivePkg cfg
        · rw [if_pos horig] at he
          simp [Except.map] at he
        · rw [if_neg horig] at he
          simp [Except.map] at he
    · intro hc
      refine ⟨"No Java files found which extend CordovaActivity.", ?_⟩
      simp only [updateProjectAccordingTo]
      rw [hfs]
      unfold relocateJava
      rw [hc]
      rfl
  · intro f g rest hc hvp hvo
    have hfmem : f ∈ javaCandidates st.fs root st.manifest.packageId := by
      rw [hc]
      exact List.mem_cons_self f (g :: rest)
    have hfdir := (javaCandidates_mem st.fs root st.manifest.packageId f hfmem).2
    have hcons := relocateJava_cons (derivePkg cfg) st.manifest.packageId root st.fs f
      (g :: rest) hc
    by_cases horig : st.manifest.packageId ≠ derivePkg cfg
    · have hDO : srcRootOf root ++ splitDots (derivePkg cfg) ≠
          srcRootOf root ++ splitDots st.manifest.packageId := by
        intro hcon
        exact splitDots_ne_of_valid _ _ hvp hvo (fun hpq => horig hpq.symm)
          (List.append_cancel_left hcon)
      rw [if_pos horig] at hcons
      refine ⟨{ manifestStage cfg st with fs := relocatedFS (derivePkg cfg) root st.fs f },
        ?_, ?_⟩
      · simp only [updateProjectAccordingTo]
        rw [hfs, hcons]
        rfl
      · show (getFileFS (relocatedFS (derivePkg cfg) root st.fs f)
            (srcRootOf root ++ splitDots (derivePkg cfg)) f.name).isSome = true
        unfold relocatedFS
        rw [getFileFS_removeEmptyDirs,
          getFileFS_rm_other _ _ _ _ _ (by rw [hfdir]; exact hDO)]
        unfold writtenFS
        rw [getFileFS_write_at _ _ _ _ rfl rfl]
        rfl
    · rw [if_neg horig] at hcons
      refine ⟨{ manifestStage cfg st with fs := writtenFS (derivePkg cfg) root st.fs f },
        ?_, ?_⟩
      · simp only [updateProjectAccordingTo]
        rw [hfs, hcons]
        rfl
      · show (getFileFS (writtenFS (derivePkg cfg) root st.fs f)
            (srcRootOf root ++ splitDots (derivePkg cfg)) f.name).isSome = true
        unfold writtenFS
        rw [getFileFS_write_at _ _ _ _ rfl rfl]
        rfl

theorem updateProject_error_handling_witness :
    ∃ st2, updateProjectAccordingTo cfgEx ["r"] stTwoEx = Except.ok st2
      ∧ (getFileFS st2.fs (srcRootOf ["r"] ++ splitDots (derivePkg cfgEx)) fileAEx.name).isSome
          = true :=
  (updateProject_error_handling cfgEx ["r"] stTwoEx).2 fileAEx fileBEx []
    (by decide) (by decide) (by decide)

/-! ## C3: source relocation -/

/-- Claim C3: when the derived package differs from the manifest's original
package, relocateJava leaves a copy of the first candidate at
src/(pkg with dots as slashes)/(original basename) with its package
declaration rewritten, removes the original file, and deletes exactly the
ancestor directories of the original file that ended up empty, walking upward
below the sources root and never removing the sources root itself; when the
packages agree, every file path still carries a file afterwards. -/
theorem relocateJava_moves (pkg orig : String) (root : List String) (fs : FS)
    (f : SrcFile) (rest : List SrcFile)
    (hvp : validPkgB pkg = true) (hvo : validPkgB orig = true)
    (hwf : wfFS fs = true)
    (hcand : javaCandidates fs root orig = f :: rest) :
    (pkg ≠ orig →
      relocateJava pkg orig root fs = Except.ok (relocatedFS pkg root fs f)
      ∧ getFileFS (relocatedFS pkg root fs f) (srcRootOf root ++ splitDots pkg) f.name =
          some { dirPath := srcRootOf root ++ splitDots pkg
                 name := f.name
                 pkgDecl := "package " ++ pkg ++ ";"
                 extendsCordovaActivity := f.extendsCordovaActivity }
      ∧ getFileFS (relocatedFS pkg root fs f) (srcRootOf root ++ splitDots orig) f.name = none
      ∧ (∀ d, d ∈ fs.dirs → ¬d ∈ (relocatedFS pkg root fs f).dirs →
          d ≠ srcRootOf root
          ∧ below (srcRootOf root) d = true
          ∧ below d (srcRootOf root ++ splitDots orig) = true
          ∧ dirEmptyB (relocatedFS pkg root fs f) d = true)
      ∧ (∀ d, d ∈ fs.dirs → d ≠ srcRootOf root →
          below (srcRootOf root) d = true →
          below d (srcRootOf root ++ splitDots orig) = true →
          dirEmptyB (relocatedFS pkg root fs f) d = true →
          ¬d ∈ (relocatedFS pkg root fs f).dirs)
      ∧ (srcRootOf root ∈ fs.dirs → srcRootOf root ∈ (relocatedFS pkg root fs f).dirs))
    ∧ (pkg = orig →
        relocateJava pkg orig root fs = Except.ok (writtenFS pkg root fs f)
        ∧ ∀ gf ∈ fs.files, ∃ g2 ∈ (writtenFS pkg root fs f).files,
            g2.dirPath = gf.dirPath ∧ g2.name = gf.name) := by
  have hfmem : f ∈ javaCandidates fs root orig := by
    rw [hcand]
    exact List.mem_cons_self f rest
  have hffiles := (javaCandidates_mem fs root orig f hfmem).1
  have hfdir := (javaCandidates_mem fs root orig f hfmem).2
  have hcons := relocateJava_cons pkg orig root fs f rest hcand
  have hwf2 : dirsClosedB fs = true ∧ filesDirsB fs = true := by
    unfold wfFS at hwf
    rw [Bool.and_eq_true] at hwf
    exact hwf
  have hbrc : below (srcRootOf root) f.dirPath = true := by
    rw [hfdir]
    exact below_append _ _
  constructor
  · intro hne
    have horig : orig ≠ pkg := fun h => hne h.symm
    rw [if_pos horig] at hcons
    have hDO : srcRootOf root ++ splitDots pkg ≠ srcRootOf root ++ splitDots orig := by
      intro hcon
      exact splitDots_ne_of_valid pkg orig hvp hvo hne (List.append_cancel_left hcon)
    refine ⟨hcons, ?_, ?_, ?_, ?_, ?_⟩
    · unfold relocatedFS
      rw [getFileFS_removeEmptyDirs,
        getFileFS_rm_other _ _ _ _ _ (by rw [hfdir]; exact hDO)]
      unfold writtenFS
      rw [getFileFS_write_at _ _ _ _ rfl rfl]
    · unfold relocatedFS
      rw [getFileFS_removeEmptyDirs, ← hfdir]
      exact getFileFS_rm _ _ _
    · intro d hd hnd
      have hd3 : d ∈ (rmFileAt (writtenFS pkg root fs f) f.dirPath f.name).dirs := by
        show d ∈ (mkdirP fs (srcRootOf root ++ splitDots pkg)).dirs
        rw [mem_mkdirP]
        exact Or.inl hd
      have hrem := removeEmptyDirs_removed
        (rmFileAt (writtenFS pkg root fs f) f.dirPath f.name) f.dirPath (srcRootOf root)
        hbrc d hd3 hnd
      exact ⟨hrem.1, hrem.2.1, by rw [← hfdir]; exact hrem.2.2.1, hrem.2.2.2⟩
    · intro d hd hdr hrd hdc hemp hdin
      have hcl3 : ∀ e ∈ (rmFileAt (writtenFS pkg root fs f) f.dirPath f.name).dirs,
          2 ≤ e.length →
            e.dropLast ∈ (rmFileAt (writtenFS pkg root fs f) f.dirPath f.name).dirs := by
        show ∀ e ∈ (mkdirP fs (srcRootOf root ++ splitDots pkg)).dirs, 2 ≤ e.length →
          e.dropLast ∈ (mkdirP fs (srcRootOf root ++ splitDots pkg)).dirs
        exact dirsClosed_mkdirP fs _ ((dirsClosed_iff fs).mp hwf2.1)
      have hcur3 : f.dirPath ∈ (rmFileAt (writtenFS pkg root fs f) f.dirPath f.name).dirs := by
        show f.dirPath ∈ (mkdirP fs (srcRootOf root ++ splitDots pkg)).dirs
        rw [mem_mkdirP]
        exact Or.inl ((filesDirs_iff fs).mp hwf2.2 f hffiles)
      have hrootne : srcRootOf root ≠ [] := by
        unfold srcRootOf
        simp
      exact removeEmptyDirs_complete
        (rmFileAt (writtenFS pkg root fs f) f.dirPath f.name) f.dirPath (srcRootOf root)
        hcl3 hrootne hbrc hcur3 d hdr hrd (by rw [hfdir]; exact hdc) hdin hemp
    · intro hin
      by_contra hnot
      have hd3 : srcRootOf root ∈ (rmFileAt (writtenFS pkg root fs f) f.dirPath f.name).dirs := by
        show srcRootOf root ∈ (mkdirP fs (srcRootOf root ++ splitDots pkg)).dirs
        rw [mem_mkdirP]
        exact Or.inl hin
      have hrem := removeEmptyDirs_removed
        (rmFileAt (writtenFS pkg root fs f) f.dirPath f.name) f.dirPath (srcRootOf root)
        hbrc (srcRootOf root) hd3 hnot
      exact hrem.1 rfl
  · intro heq
    rw [if_neg (fun hcon => hcon heq.symm)] at hcons
    refine ⟨hcons, ?_⟩
    intro gf hgf
    by_cases hat : gf.dirPath = srcRootOf root ++ splitDots pkg ∧ gf.name = f.name
    · refine ⟨{ dirPath := srcRootOf root ++ splitDots pkg
                name := f.name
                pkgDecl := "package " ++ pkg ++ ";"
                extendsCordovaActivity := f.extendsCordovaActivity }, ?_, ?_, ?_⟩
      · unfold writtenFS writeFileFS
        exact List.mem_append_right _ (List.mem_singleton_self _)
      · rw [hat.1]
      · rw [hat.2]
    · refine ⟨gf, ?_, rfl, rfl⟩
      unfold writtenFS writeFileFS
      apply List.mem_append_left
      rw [List.mem_filter]
      refine ⟨hgf, ?_⟩
      rcases not_and_or.mp hat with h1 | h1
      · have hb : (gf.dirPath == srcRootOf root ++ splitDots pkg) = false := by
          rw [beq_eq_false_iff_ne]
          exact h1
        simp [hb]
      · have hb : (gf.name == f.name) = false := by
          rw [beq_eq_false_iff_ne]
          exact h1
        simp [hb]

theorem relocateJava_moves_witness :
    getFileFS (relocatedFS "com.npkg" ["r"] fsEx mainFileEx)
        (srcRootOf ["r"] ++ splitDots "com.npkg") mainFileEx.name =
      some { dirPath := srcRootOf ["r"] ++ splitDots "com.npkg"
             name := mainFileEx.name
             pkgDecl := "package " ++ "com.npkg" ++ ";"
             extendsCordovaActivity := mainFileEx.extendsCordovaActivity } :=
  ((relocateJava_moves "com.npkg" "com.old" ["r"] fsEx mainFileEx []
      (by decide) (by decide) (by decide) (by decide)).1 (by decide)).2.1
